import Mathlib

/-!
Verification of the dungeon-mark document-model compiler.

This file gives a shallow embedding of the compiler core:
the event cursor (`CMarkParser`), the table-of-contents parser
(`TOCParser`), the section-tree builder (`JournalEntryParser`), the
directive preprocessor (`DirectivePreprocessor`) and the metadata
extractor (`extract_metadata`), together with theorems about them.

Strings are modelled as `List Char` (`Str`), so that all definitions are
executable and amenable to structural induction.  The Markdown tokenizer
and the CommonMark re-serializer are external collaborators of the
program (off-the-shelf crates); they are modelled here from the spec's
interface description, restricted to the block shapes the claims
exercise (paragraphs with soft breaks and fenced code blocks).
-/

namespace DM

/-- Characters of a string; `String.data` at the boundary. -/
abbrev Str := List Char

/-- Tags of structural events, after `pulldown_cmark::Tag`.
Heading levels are the ordinals 1..6 of `HeadingLevel`. -/
inductive Tag where
  | Paragraph : Tag
  | Heading : Nat → Tag
  | CodeBlockFenced : Str → Tag
  | CodeBlockIndented : Tag
  | List : Bool → Tag
  | Item : Tag
  | Link : Str → Tag
  | Emphasis : Tag
  | BlockQuote : Tag
deriving DecidableEq

/-- Events of the tokenizer's stream, after `pulldown_cmark::Event`. -/
inductive Event where
  | Start : Tag → Event
  | End : Tag → Event
  | Text : Str → Event
  | Code : Str → Event
  | Html : Str → Event
  | SoftBreak : Event
  | HardBreak : Event
  | Rule : Event
deriving DecidableEq

/-- Index of the last occurrence of `c` (the `memchr::memrchr` call used
by `CMarkParser::position`). -/
def memrchr (c : Char) : Str → Option Nat
  | [] => none
  | x :: xs =>
    match memrchr c xs with
    | some i => some (i + 1)
    | none => if x = c then some 0 else none

/-- Line/column pair, after `cmark::parser::Position`. -/
structure Position where
  line : Nat
  column : Nat
deriving DecidableEq

/-- The event cursor, after `cmark::parser::CMarkParser`: the source
text, the remaining `(event, range.start)` pairs of the offset
iterator, and the recorded offset of the last consumed event. -/
structure CMarkParser where
  source : Str
  events : List (Event × Nat)
  offset : Nat
deriving DecidableEq

namespace CMarkParser

/-- Build a cursor over a source and its event stream
(after `CMarkParser::new`; offsets are carried with the events). -/
def new (source : Str) (events : List (Event × Nat)) : CMarkParser :=
  { source := source, events := events, offset := 0 }

/-- Line and column of the last consumed event, after
`CMarkParser::position`: count newline bytes before the offset for the
line, and count the characters of `source[start_of_line..offset]` for
the column, where `start_of_line` is `memrchr(b'\n', ..)` or 0. -/
def position (p : CMarkParser) : Position :=
  let previous := p.source.take p.offset
  let line := previous.count '\n' + 1
  let start_of_line := (memrchr '\n' previous).getD 0
  let column := (previous.drop start_of_line).length
  { line := line, column := column }

/-- Peek the next event without consuming it (after `peek_event`). -/
def peekEvent (p : CMarkParser) : Option Event :=
  match p.events with
  | [] => none
  | (e, _) :: _ => some e

/-- Consume the next event, recording its range start as the offset
(after `next_event`). -/
def nextEvent (p : CMarkParser) : Option Event × CMarkParser :=
  match p.events with
  | [] => (none, p)
  | (e, o) :: rest => (some e, { p with events := rest, offset := o })

/-- Worker for `iterUntil`: drain `(event, offset)` pairs while the
predicate is false, stopping before the matching event. -/
def iterUntilGo (pred : Event → Bool) :
    List (Event × Nat) → Nat → List Event × List (Event × Nat) × Nat
  | [], off => ([], [], off)
  | (e, o) :: rest, off =>
    if pred e then ([], (e, o) :: rest, off)
    else
      let (evs, rem, off') := iterUntilGo pred rest o
      (e :: evs, rem, off')

/-- Events before the first one matching `pred`, which is not consumed
(after `CMarkParser::iter_until`, collected to a list). -/
def iterUntil (pred : Event → Bool) (p : CMarkParser) :
    List Event × CMarkParser :=
  let (evs, rem, off) := iterUntilGo pred p.events p.offset
  (evs, { p with events := rem, offset := off })

/-- Worker for `iterUntilConsume`: like `iterUntilGo` but the matching
event is consumed (its offset recorded) without being returned. -/
def iterUntilConsumeGo (pred : Event → Bool) :
    List (Event × Nat) → Nat → List Event × List (Event × Nat) × Nat
  | [], off => ([], [], off)
  | (e, o) :: rest, off =>
    if pred e then ([], rest, o)
    else
      let (evs, rem, off') := iterUntilConsumeGo pred rest o
      (e :: evs, rem, off')

/-- Events before the first one matching `pred`; the matching event is
consumed but not returned (after `CMarkParser::iter_until_and_consume`).
-/
def iterUntilConsume (pred : Event → Bool) (p : CMarkParser) :
    List Event × CMarkParser :=
  let (evs, rem, off) := iterUntilConsumeGo pred p.events p.offset
  (evs, { p with events := rem, offset := off })

end CMarkParser

/-- Modelled from the spec: the CommonMark re-serialization performed by
the external `pulldown_cmark_to_cmark` crate (`EventIteratorExt::
stringify`), restricted to the event shapes the claims exercise.  A
block start is preceded by a blank double line-break unless nothing was
emitted yet; text, inline code, html and breaks are emitted in place;
a fenced code block renders as its fence line, raw contents and closing
fence. -/
def emit (first : Bool) : Event → Str × Bool
  | .Text s => (s, false)
  | .Code s => ("`".data ++ s ++ "`".data, false)
  | .Html s => (s, false)
  | .SoftBreak => (['\n'], false)
  | .HardBreak => (['\n'], false)
  | .Rule => ((if first then [] else ['\n', '\n']) ++ ['-', '-', '-'], false)
  | .Start (.CodeBlockFenced info) =>
    ((if first then [] else ['\n', '\n']) ++ "```".data ++ info ++ ['\n'], false)
  | .End (.CodeBlockFenced _) => ("```".data, false)
  | .Start .Paragraph => ((if first then [] else ['\n', '\n']), false)
  | .End .Paragraph => ([], false)
  | .Start (.Heading n) =>
    ((if first then [] else ['\n', '\n']) ++ List.replicate n '#' ++ [' '], false)
  | .End (.Heading _) => ([], false)
  | .Start _ => ([], first)
  | .End _ => ([], first)

/-- Worker for `stringify`: fold `emit` over the events, tracking
whether anything has been emitted yet. -/
def stringifyGo (first : Bool) : List Event → Str
  | [] => []
  | e :: es =>
    let (s, f) := emit first e
    s ++ stringifyGo f es

/-- Modelled from the spec: render a run of events back to CommonMark
text (the `stringify` extension method over `pulldown_cmark_to_cmark`).
In the model it is total; the crate's only failure source is the string
writer, which cannot fail. -/
def stringify (es : List Event) : Str := stringifyGo true es

theorem stringify_paragraph_sample :
    stringify [Event.Start Tag.Paragraph, Event.Text "S".data,
      Event.End Tag.Paragraph] = "S".data := by decide

theorem stringify_text_sample :
    stringify [Event.Text "DATA\n".data] = "DATA\n".data := by decide

/-- Errors are `anyhow` messages, modelled as their text. -/
abbrev PErr := Str

/-- Fuel exhaustion marker of the model's fuelled loops; top-level
drivers supply enough fuel for it never to occur. -/
def fuelErr : PErr := "model: out of fuel".data

/-- The `.with_context(..)` wrapper of `anyhow`: layers an outer
message onto an error. -/
def withCtx (outer : String) (r : Except PErr α) : Except PErr α :=
  r.mapError (fun e => outer.data ++ ": ".data ++ e)

/-- Metadata attached to a section, after `SectionMetadata`. -/
structure SectionMetadata where
  lang : Str
  data : Str
deriving DecidableEq

/-- A section of a journal entry, after `Section`.  The heading level is
the ordinal 1..6 of `SectionLevel`; the metadata map (a `HashMap` in the
source) is modelled as an association list with key-replacing insert. -/
structure Section where
  title : Str
  level : Nat
  body : Str
  metadata : List (Str × SectionMetadata)
  sections : List Section

/-- True on `Event::Start(Tag::Heading(..))`. -/
def isHeadingStart : Event → Bool
  | .Start (.Heading _) => true
  | _ => false

/-- True on `Event::End(Tag::Heading(..))`. -/
def isHeadingEnd : Event → Bool
  | .End (.Heading _) => true
  | _ => false

namespace JournalEntryParser

open CMarkParser

/-- After `JournalEntryParser::parse_body`: collect and render every
event up to (not including) the first heading start (on end of stream
the final `next_event` call is a no-op); an empty rendering becomes
`None`. -/
def parse_body (p : CMarkParser) : Except PErr (Option Str × CMarkParser) :=
  let (events, p) := iterUntil isHeadingStart p
  let p := if (peekEvent p).isNone then (nextEvent p).2 else p
  let body := stringify events
  pure (if body = [] then none else some body, p)

/-- The title and own-body phase of `JournalEntryParser::parse_section`:
render the heading title through its end tag, then render the body up to
(not including) the next heading start. -/
def parse_section_head (p : CMarkParser) : Str × Str × CMarkParser :=
  let (titleEvents, p) := iterUntilConsume isHeadingEnd p
  let title := stringify titleEvents
  let (bodyEvents, p) := iterUntil isHeadingStart p
  let body := stringify bodyEvents
  (title, body, p)

/-- The child loop of `JournalEntryParser::parse_section`: while the
next event is a heading start whose level is strictly greater than
`level`, consume it and recurse into `parse_section` (inlined here as
the head phase followed by this loop at the child's level); stop without
consuming at the first heading of level `≤ level`, at any other event,
or at end of stream. -/
def parse_section_loop (fuel : Nat) (level : Nat) (p : CMarkParser) :
    Except PErr (List Section × CMarkParser) :=
  match fuel with
  | 0 => throw fuelErr
  | fuel + 1 =>
    match peekEvent p with
    | some (.Start (.Heading h)) =>
      if level < h then do
        let p := (nextEvent p).2
        let (title, body, p) := parse_section_head p
        let (children, p) ← parse_section_loop fuel h p
        let sec : Section := { title := title, level := h, body := body,
                               metadata := [], sections := children }
        let (rest, p) ← parse_section_loop fuel level p
        pure (sec :: rest, p)
      else pure ([], p)
    | _ => pure ([], p)

/-- After `JournalEntryParser::parse_section`, for a heading whose start
tag at `level` was already consumed by the caller. -/
def parse_section (fuel : Nat) (level : Nat) (p : CMarkParser) :
    Except PErr (Section × CMarkParser) := do
  let (title, body, p) := parse_section_head p
  let (sections, p) ← parse_section_loop fuel level p
  pure ({ title := title, level := level, body := body,
          metadata := [], sections := sections }, p)

/-- After `JournalEntryParser::parse_sections`: the top-level driver
that repeatedly consumes an event, parses a section at each heading
start, and ignores any other event. -/
def parse_sections (fuel : Nat) (p : CMarkParser) :
    Except PErr (List Section × CMarkParser) :=
  match fuel with
  | 0 => throw fuelErr
  | fuel + 1 =>
    match nextEvent p with
    | (none, p) => pure ([], p)
    | (some (.Start (.Heading h)), p) => do
      let (sec, p) ← parse_section fuel h p
      let (rest, p) ← parse_sections fuel p
      pure (sec :: rest, p)
    | (some _, p) => parse_sections fuel p

/-- After `JournalEntryParser::parse`: the preamble body followed by the
top-level sections.  The driver is supplied enough fuel for the fuelled
loops never to run dry. -/
def parse (source : Str) (events : List (Event × Nat)) :
    Except PErr (Option Str × List Section) := do
  let p := CMarkParser.new source events
  let (body, p) ← parse_body p
  let (sections, _) ← parse_sections (p.events.length + 1) p
  pure (body, sections)

end JournalEntryParser

/-- A table-of-contents item, after `TOCItem`; the `Link` payload
carries the fields of the source's `Link` struct (name, optional
location, nested items). -/
inductive TOCItem where
  | Link (name : Str) (location : Option Str) (nested_items : List TOCItem)
  | SectionTitle (title : Str)
  | Separator

/-- After `TOCItem::maybe_link`: a total accessor returning the link
payload when the item is a link. -/
def TOCItem.maybe_link : TOCItem → Option (Str × Option Str × List TOCItem)
  | .Link name location nested_items => some (name, location, nested_items)
  | _ => none

/-- True on `Event::End(Tag::Heading(HeadingLevel::H1, ..))`. -/
def isH1End : Event → Bool
  | .End (.Heading 1) => true
  | _ => false

/-- True on `Event::End(Tag::Link(..))`. -/
def isLinkEnd : Event → Bool
  | .End (.Link _) => true
  | _ => false

namespace TOCParser

open CMarkParser

/-- After `TOCParser::parse_error`: the formatted message carrying the
cursor's line/column position. -/
def parse_error (p : CMarkParser) (message : Str) : PErr :=
  "failed to parse JOURNAL.md line: ".data ++ (Nat.repr p.position.line).data
    ++ ", column: ".data ++ (Nat.repr p.position.column).data
    ++ ": ".data ++ message

/-- The `href.replace("%20", " ")` unescaping of `parse_link`:
left-to-right, non-overlapping replacement of every literal `%20` by a
space. -/
def unescapeHref : Str → Str
  | '%' :: '2' :: '0' :: rest => ' ' :: unescapeHref rest
  | c :: rest => c :: unescapeHref rest
  | [] => []

/-- After `TOCParser::parse_link`: unescape the href, render the link
text through the link end tag with soft breaks converted to single
spaces, and accept an empty href as `location = None`. -/
def parse_link (href : Str) (p : CMarkParser) :
    Except PErr (TOCItem × CMarkParser) := do
  let href := unescapeHref href
  let (nameEvents, p) := iterUntilConsume isLinkEnd p
  let nameEvents := nameEvents.map (fun e =>
    match e with
    | .SoftBreak => Event.Text " ".data
    | other => other)
  let name := stringify nameEvents
  let location := if href = [] then none else some href
  pure (TOCItem.Link name location [], p)

/-- After `TOCParser::parse_toc_item`, for a list item whose start tag
was already consumed: skip leading paragraph starts, parse a link start,
and fail on anything else with a positioned error. -/
def parse_toc_item (fuel : Nat) (p : CMarkParser) :
    Except PErr (TOCItem × CMarkParser) :=
  match fuel with
  | 0 => throw fuelErr
  | fuel + 1 =>
    match nextEvent p with
    | (some (.Start .Paragraph), p) => parse_toc_item fuel p
    | (some (.Start (.Link href)), p) => parse_link href p
    | (_, p) =>
      throw (parse_error p
        "Items in the table of contents must only contain links.".data)

/-- After `TOCParser::parse_toc_items`: parse a run of TOC items; the
`items` accumulator mirrors the source's `items` vector.  A level-1
heading ends the run without consuming; an item start parses one item; a
list start is consumed and, when the last parsed item is a link,
attaches a recursively parsed run as its nested items; a list end ends
the run; any other start tag is skipped through its matching end tag; a
rule becomes a separator; anything else is skipped. -/
def parse_toc_items (fuel : Nat) (p : CMarkParser) (items : List TOCItem) :
    Except PErr (List TOCItem × CMarkParser) :=
  match fuel with
  | 0 => throw fuelErr
  | fuel + 1 =>
    match peekEvent p with
    | some (.Start (.Heading 1)) => pure (items, p)
    | some (.Start .Item) => do
      let p := (nextEvent p).2
      let (item, p) ← parse_toc_item fuel p
      parse_toc_items fuel p (items ++ [item])
    | some (.Start (.List _)) =>
      let p := (nextEvent p).2
      if items.isEmpty then
        parse_toc_items fuel p items
      else
        match items.getLast? with
        | some (.Link name location _) => do
          let (nested, p) ← parse_toc_items fuel p []
          parse_toc_items fuel p
            (items.dropLast ++ [TOCItem.Link name location nested])
        | _ => parse_toc_items fuel p items
    | some (.End (.List _)) => pure (items, (nextEvent p).2)
    | some (.Start otherTag) =>
      let (_, p) := iterUntilConsume (fun e => e = Event.End otherTag) p
      parse_toc_items fuel p items
    | some .Rule =>
      parse_toc_items fuel ((nextEvent p).2) (items ++ [TOCItem.Separator])
    | some _ => parse_toc_items fuel ((nextEvent p).2) items
    | none => pure (items, p)

/-- After `TOCParser::parse_toc`: the body loop pushing a
`SectionTitle` for each level-1 heading and extending with parsed item
runs until the stream is exhausted. -/
def parse_toc (fuel : Nat) (p : CMarkParser) (acc : List TOCItem) :
    Except PErr (List TOCItem × CMarkParser) :=
  match fuel with
  | 0 => throw fuelErr
  | fuel + 1 =>
    match peekEvent p with
    | none => pure (acc, p)
    | some e => do
      let (acc, p) :=
        match e with
        | .Start (.Heading 1) =>
          let p := (nextEvent p).2
          let (headingEvents, p) := iterUntilConsume isH1End p
          (acc ++ [TOCItem.SectionTitle (stringify headingEvents)], p)
        | _ => (acc, p)
      let (items, p) ←
        withCtx "There was an error parsing TOC entries"
          (parse_toc_items fuel p [])
      parse_toc fuel p (acc ++ items)

/-- After `TOCParser::parse_title`: skip raw-HTML events, return the
rendered level-1 heading as the title, or `None` on any other event. -/
def parse_title (fuel : Nat) (p : CMarkParser) :
    Except PErr (Option Str × CMarkParser) :=
  match fuel with
  | 0 => throw fuelErr
  | fuel + 1 =>
    match peekEvent p with
    | some (.Start (.Heading 1)) =>
      let p := (nextEvent p).2
      let (headingEvents, p) := iterUntilConsume isH1End p
      pure (some (stringify headingEvents), p)
    | some (.Html _) => parse_title fuel ((nextEvent p).2)
    | _ => pure (none, p)

/-- After `TOCParser::parse`: title extraction followed by the body
loop.  The drivers are supplied enough fuel for the fuelled loops never
to run dry. -/
def parse (source : Str) (events : List (Event × Nat)) :
    Except PErr (Option Str × List TOCItem) := do
  let p := CMarkParser.new source events
  let (title, p) ← parse_title (p.events.length + 1) p
  let (items, _) ← parse_toc (p.events.length + 2) p []
  pure (title, items)

end TOCParser

/-! ## Directive preprocessor -/

/-- The literal open marker, `OPEN_SEQUENCE`. -/
def openSeq : Str := "\x7b\x7b#".data

/-- The literal close marker, `CLOSE_SEQUENCE`. -/
def closeSeq : Str := "\x7d\x7d".data

/-- Byte index of the first occurrence of `needle` (the
`memmem::Finder::find` calls of the preprocessor). -/
def findSub (needle : Str) : Str → Option Nat
  | [] => if needle = [] then some 0 else none
  | c :: rest =>
    if needle.isPrefixOf (c :: rest) then some 0
    else (findSub needle rest).map (· + 1)

/-- The `str::trim` of the source, over character lists. -/
def trim (s : Str) : Str :=
  ((s.dropWhile Char.isWhitespace).reverse.dropWhile Char.isWhitespace).reverse

/-- The `str::strip_prefix` of the source: the remainder when `pre`
leads the string. -/
def dropLit (pre s : Str) : Option Str :=
  if pre.isPrefixOf s then some (s.drop pre.length) else none

/-- The `str::strip_suffix` of the source: the remainder when `suf`
ends the string. -/
def dropSuffixLit (suf s : Str) : Option Str :=
  if suf.isSuffixOf s then some (s.take (s.length - suf.length)) else none

/-- The fields of `JournalEntry` read and written by the directive
preprocessor. -/
structure JournalEntry where
  title : Str
  body : Option Str
  path : Option Str
deriving DecidableEq

/-- The preprocessor context: the project root and the configured
source directory, plus a file-reading environment.  The environment is
modelled from the spec: `fs::read_to_string` is blocking file I/O,
represented as a partial map from paths to contents. -/
structure PreprocessorContext where
  root : Str
  sourceDir : Str
  fs : Str → Option Str

/-- Modelled from the spec: `PathBuf::join` over textual paths. -/
def pathJoin (a b : Str) : Str := a ++ '/' :: b

/-- Modelled from the spec: `PathBuf::pop`, dropping the last path
component. -/
def pathPop (p : Str) : Str :=
  match memrchr '/' p with
  | some i => p.take i
  | none => []

/-- After `preprocess_directive`: strip the delimiters and dispatch on
the leading keyword — `title` replaces the entry's title and renders to
the empty string, `include` reads a file relative to the entry's
directory, and any other keyword is reinserted verbatim.  Returns the
replacement text and the (possibly retitled) entry. -/
def preprocess_directive (ctx : PreprocessorContext) (entry : JournalEntry)
    (directive : Str) : Except PErr (Str × JournalEntry) :=
  match dropLit openSeq directive with
  | none => throw "Directive must start with \x7b#".data
  | some parsed =>
    match dropSuffixLit closeSeq parsed with
    | none => throw "Directive must end with \x7d".data
    | some parsed =>
      match dropLit "title".data parsed with
      | some title => pure ([], { entry with title := trim title })
      | none =>
        match dropLit "include".data parsed with
        | some path =>
          match entry.path with
          | none => throw ("The given journal entry has no file path "
              ++ "and cannot have #include directives").data
          | some entryPath =>
            let path := trim path
            let includePath :=
              pathJoin (pathPop (pathJoin (pathJoin ctx.root ctx.sourceDir)
                entryPath)) path
            match ctx.fs includePath with
            | some contents => pure (contents, entry)
            | none => throw ("failed to open file: ".data ++ includePath)
        | none => pure (directive, entry)

/-- The scan loop of `DirectivePreprocessor::preprocess_entry`: find the
next open marker (if none, the loop exits — the remaining input is not
pushed to the output pieces); find the next close marker (failing if
none, or if it closes before the open marker begins); process the
directive span and continue after it. -/
def preprocess_entry_go (ctx : PreprocessorContext) (fuel : Nat)
    (entry : JournalEntry) (input : Str) (processed : List Str) :
    Except PErr (List Str × JournalEntry) :=
  match fuel with
  | 0 => throw fuelErr
  | fuel + 1 =>
    match findSub openSeq input with
    | none => pure (processed, entry)
    | some start =>
      match findSub closeSeq input with
      | none => throw "Cannot find matching closing brace pair".data
      | some closePos =>
        let endPos := closePos + closeSeq.length
        if endPos ≤ start then
          throw "Closing brace pair found before opening brace pair".data
        else do
          let directive := (input.take endPos).drop start
          let (replacement, entry) ← preprocess_directive ctx entry directive
          preprocess_entry_go ctx fuel entry (input.drop endPos)
            (processed ++ [input.take start, replacement])

/-- After `DirectivePreprocessor::preprocess_entry`: run the scan loop
over the entry's body and join the collected pieces into the new body.
An entry without a body is returned unchanged. -/
def preprocess_entry (ctx : PreprocessorContext) (entry : JournalEntry) :
    Except PErr JournalEntry :=
  match entry.body with
  | none => pure entry
  | some body => do
    let (processed, entry) ←
      preprocess_entry_go ctx (body.length + 1) entry body []
    pure { entry with body := some processed.flatten }

/-! ## Metadata extractor -/

/-- Split on every occurrence of a character (the `str::split` calls of
the metadata extractor and the line structure of the tokenizer model).
-/
def splitOnChar (sep : Char) : Str → List Str
  | [] => [[]]
  | c :: rest =>
    if c = sep then [] :: splitOnChar sep rest
    else
      match splitOnChar sep rest with
      | h :: t => (c :: h) :: t
      | [] => [[c]]

/-- After `is_metadata_block`: the info string, split on commas and
trimmed, has exactly three fields with the middle field literally
`metadata`. -/
def is_metadata_block (tag : Str) : Bool :=
  match (splitOnChar ',' tag).map trim with
  | [_, m, _] => m = "metadata".data
  | _ => false

/-- After `parse_metadata_tag`: the language and key fields of a
matching info string (the source marks the non-matching case
unreachable, guarded by `is_metadata_block`). -/
def parse_metadata_tag (tag : Str) : Str × Str :=
  match (splitOnChar ',' tag).map trim with
  | [lang, _, key] => (lang, key)
  | _ => ([], [])

/-- True on a fenced code block start whose info string marks a
metadata block. -/
def isMetadataStart : Event → Bool
  | .Start (.CodeBlockFenced tag) => is_metadata_block tag
  | _ => false

/-- True on `Event::End(Tag::CodeBlock(CodeBlockKind::Fenced(_)))`. -/
def isFencedEnd : Event → Bool
  | .End (.CodeBlockFenced _) => true
  | _ => false

/-- After `HashMap::insert`: association-list insert that replaces an
existing binding of the key. -/
def mapInsert (m : List (Str × SectionMetadata)) (k : Str)
    (v : SectionMetadata) : List (Str × SectionMetadata) :=
  if m.any (fun kv => kv.1 = k) then
    m.map (fun kv => if kv.1 = k then (k, v) else kv)
  else m ++ [(k, v)]

/-- After `HashMap::extend`: fold the right map's bindings into the
left map. -/
def mapExtend (m adds : List (Str × SectionMetadata)) :
    List (Str × SectionMetadata) :=
  adds.foldl (fun acc kv => mapInsert acc kv.1 kv.2) m

/-- The event-walking loop of `extract_metadata`: a fenced code block
start with a metadata info string is consumed through its end, its raw
text recorded under the key and a blank double line-break pushed in its
place; any other run of events is rendered through to the output
unchanged. -/
def extract_metadata_go (fuel : Nat) (p : CMarkParser) (body : List Str)
    (metadata : List (Str × SectionMetadata)) :
    Except PErr (List Str × List (Str × SectionMetadata)) :=
  match fuel with
  | 0 => throw fuelErr
  | fuel + 1 =>
    match CMarkParser.peekEvent p with
    | none => pure (body, metadata)
    | some (.Start (.CodeBlockFenced tag)) =>
      if is_metadata_block tag then
        let (lang, key) := parse_metadata_tag tag
        let p := (CMarkParser.nextEvent p).2
        let (dataEvents, p) := CMarkParser.iterUntilConsume isFencedEnd p
        let data := stringify dataEvents
        extract_metadata_go fuel p (body ++ [['\n', '\n']])
          (mapInsert metadata key { lang := lang, data := data })
      else
        let (events, p) := CMarkParser.iterUntil isMetadataStart p
        extract_metadata_go fuel p (body ++ [stringify events]) metadata
    | some _ =>
      let (events, p) := CMarkParser.iterUntil isMetadataStart p
      extract_metadata_go fuel p (body ++ [stringify events]) metadata

/-! ## Tokenizer model -/

/-- True on a line whose trimmed content is empty. -/
def isBlankLine (l : Str) : Bool := trim l = []

/-- True on a fenced-code line: three backticks lead the line. -/
def isFenceLine (l : Str) : Bool := "```".data.isPrefixOf l

/-- Join lines, terminating each with a newline (the raw contents of a
fenced code block). -/
def joinLinesNl : List Str → Str
  | [] => []
  | l :: ls => l ++ '\n' :: joinLinesNl ls

/-- Modelled from the spec: the external CommonMark tokenizer
(`pulldown_cmark::Parser`), restricted to the block shapes the claims
exercise — blank lines separate blocks, a line opening with three
backticks fences a code block whose info string is the trimmed rest of
the line and whose raw contents end at the next fence line, and maximal
runs of other lines form paragraphs of text separated by soft breaks. -/
def tokenizeLines (fuel : Nat) (lines : List Str) : List Event :=
  match fuel, lines with
  | 0, _ => []
  | _, [] => []
  | fuel + 1, l :: ls =>
    if isBlankLine l then tokenizeLines fuel ls
    else if isFenceLine l then
      let info := trim (l.drop 3)
      let content := ls.takeWhile (fun x => !(isFenceLine x))
      let rest := (ls.dropWhile (fun x => !(isFenceLine x))).drop 1
      Event.Start (Tag.CodeBlockFenced info)
        :: ((if content = [] then [] else [Event.Text (joinLinesNl content)])
          ++ Event.End (Tag.CodeBlockFenced info) :: tokenizeLines fuel rest)
    else
      let para := l :: ls.takeWhile (fun x => !(isBlankLine x) && !(isFenceLine x))
      let rest := ls.dropWhile (fun x => !(isBlankLine x) && !(isFenceLine x))
      Event.Start Tag.Paragraph
        :: (List.intersperse Event.SoftBreak (para.map Event.Text)
          ++ Event.End Tag.Paragraph :: tokenizeLines fuel rest)

/-- Modelled from the spec: tokenize a body string (the
`CMarkParser::new(&section.body)` call of the metadata extractor). -/
def tokenize (s : Str) : List Event :=
  tokenizeLines ((splitOnChar '\n' s).length + 1) (splitOnChar '\n' s)

/-- After `extract_metadata`: re-tokenize the section's body, run the
extraction loop, and return the section with the rewritten body and its
metadata map extended by the extracted entries. -/
def extract_metadata (sec : Section) : Except PErr Section := do
  let p := CMarkParser.new sec.body
    ((tokenize sec.body).map (fun e => (e, 0)))
  let (body, metadata) ←
    extract_metadata_go (p.events.length + 1) p [] []
  pure { sec with body := body.flatten,
                  metadata := mapExtend sec.metadata metadata }

/-! ## Basic lemmas about the event cursor -/

theorem memrchr_lt_length {c : Char} {s : Str} {i : Nat}
    (h : memrchr c s = some i) : i < s.length := by
  induction s generalizing i with
  | nil => simp [memrchr] at h
  | cons x xs ih =>
    rw [memrchr] at h
    cases hm : memrchr c xs with
    | some j =>
      rw [hm] at h
      cases h
      exact Nat.succ_lt_succ (ih hm)
    | none =>
      rw [hm] at h
      by_cases hx : x = c
      · simp only [hx, if_pos rfl] at h
        cases h
        simp
      · simp [hx] at h

theorem iterUntilGo_events_suffix (pred : Event → Bool)
    (evs : List (Event × Nat)) (off : Nat) :
    (CMarkParser.iterUntilGo pred evs off).2.1 <:+ evs := by
  induction evs generalizing off with
  | nil => simp [CMarkParser.iterUntilGo]
  | cons e rest ih =>
    obtain ⟨e, o⟩ := e
    simp only [CMarkParser.iterUntilGo]
    split
    · exact List.suffix_refl _
    · exact (ih o).trans (List.suffix_cons _ _)

theorem iterUntilConsumeGo_events_suffix (pred : Event → Bool)
    (evs : List (Event × Nat)) (off : Nat) :
    (CMarkParser.iterUntilConsumeGo pred evs off).2.1 <:+ evs := by
  induction evs generalizing off with
  | nil => simp [CMarkParser.iterUntilConsumeGo]
  | cons e rest ih =>
    obtain ⟨e, o⟩ := e
    simp only [CMarkParser.iterUntilConsumeGo]
    split
    · exact (List.suffix_cons _ _)
    · exact (ih o).trans (List.suffix_cons _ _)

theorem iterUntilGo_length_le (pred : Event → Bool)
    (evs : List (Event × Nat)) (off : Nat) :
    (CMarkParser.iterUntilGo pred evs off).2.1.length ≤ evs.length :=
  (iterUntilGo_events_suffix pred evs off).length_le

theorem iterUntilConsumeGo_length_le (pred : Event → Bool)
    (evs : List (Event × Nat)) (off : Nat) :
    (CMarkParser.iterUntilConsumeGo pred evs off).2.1.length ≤ evs.length :=
  (iterUntilConsumeGo_events_suffix pred evs off).length_le

/-- Modelled from the spec's words, for comparison with
`CMarkParser.position`: line is the newline count before the offset
plus one, and column is the 1-based count of characters since (strictly
after) the last newline. -/
def positionSpec (p : CMarkParser) : Position :=
  let previous := p.source.take p.offset
  let line := previous.count '\n' + 1
  let column :=
    (match memrchr '\n' previous with
     | some i => previous.length - (i + 1)
     | none => previous.length) + 1
  { line := line, column := column }

/-- Characterization of the non-consuming drain: it collects the
longest prefix on which the predicate is false and stops at the rest. -/
theorem iterUntilGo_eq_takeWhile (pred : Event → Bool)
    (evs : List (Event × Nat)) (off : Nat) :
    (CMarkParser.iterUntilGo pred evs off).1
        = (evs.takeWhile (fun x => !pred x.1)).map Prod.fst ∧
    (CMarkParser.iterUntilGo pred evs off).2.1
        = evs.dropWhile (fun x => !pred x.1) := by
  induction evs generalizing off with
  | nil => simp [CMarkParser.iterUntilGo]
  | cons e rest ih =>
    obtain ⟨e, o⟩ := e
    simp only [CMarkParser.iterUntilGo, List.takeWhile, List.dropWhile]
    cases hp : pred e with
    | true => simp [hp]
    | false => simpa [hp] using ih o

/-! ## Claim C7: cursor position -/

/-- C7 counterexample: after consuming the sole event of source `"ab"`
(offset 0, no newline before it), `position` reports column 0, while
the claimed 1-based count of characters since the last newline is 1.
The column the code computes is not 1-based on the first line. -/
theorem C7_position_column_not_one_based :
    ((CMarkParser.nextEvent
        (CMarkParser.new "ab".data [(Event.Text "a".data, 0)])).2.position
      = { line := 1, column := 0 })
    ∧ (positionSpec (CMarkParser.nextEvent
        (CMarkParser.new "ab".data [(Event.Text "a".data, 0)])).2
      = { line := 1, column := 1 }) := by
  constructor <;> rfl

/-- C7 (amended): `position` derives the line as the newline count in
the source up to the last consumed offset plus one (1-based), and the
column as the character count of the slice from the byte index of the
last newline (or from the start when there is none) to the offset —
one more than the characters strictly after that newline when one
exists (1-based there), and the plain 0-based character count from the
start of the source otherwise. -/
theorem C7_position_characterization (p : CMarkParser)
    (h : p.offset ≤ p.source.length) :
    p.position.line = (p.source.take p.offset).count '\n' + 1
    ∧ (∀ i, memrchr '\n' (p.source.take p.offset) = some i →
        p.position.column = (p.offset - (i + 1)) + 1)
    ∧ (memrchr '\n' (p.source.take p.offset) = none →
        p.position.column = p.offset) := by
  have hlen : (p.source.take p.offset).length = p.offset := by
    simp [List.length_take, Nat.min_eq_left h]
  refine ⟨rfl, ?_, ?_⟩
  · intro i hi
    have hilt : i < p.offset := hlen ▸ memrchr_lt_length hi
    show ((p.source.take p.offset).drop
        ((memrchr '\n' (p.source.take p.offset)).getD 0)).length
      = (p.offset - (i + 1)) + 1
    rw [hi]
    simp only [Option.getD_some, List.length_drop, hlen]
    omega
  · intro hn
    show ((p.source.take p.offset).drop
        ((memrchr '\n' (p.source.take p.offset)).getD 0)).length = p.offset
    rw [hn]
    simp [hlen]

/-- C7 witness: the characterization applied to a concrete cursor on
source `"a\nb"` with its event consumed (offset 2, last newline at
index 1, column 1). -/
theorem C7_position_characterization_witness :
    ((CMarkParser.nextEvent
        (CMarkParser.new "a\nb".data [(Event.Text "b".data, 2)])).2.position.column
      = (2 - (1 + 1)) + 1) :=
  (C7_position_characterization _ (by decide)).2.1 1 (by decide)

/-! ## Lemmas about substring search -/

theorem findSub_decomp {needle hay : Str} {i : Nat}
    (h : findSub needle hay = some i) :
    ∃ pre post, hay = pre ++ needle ++ post ∧ pre.length = i := by
  induction hay generalizing i with
  | nil =>
    rw [findSub] at h
    split at h
    · rename_i hn
      cases h
      exact ⟨[], [], by simp [hn], rfl⟩
    · cases h
  | cons c rest ih =>
    rw [findSub] at h
    split at h
    · rename_i hp
      cases h
      obtain ⟨t, ht⟩ := List.isPrefixOf_iff_prefix.mp hp
      exact ⟨[], t, by simp [← ht], rfl⟩
    · rcases hj : findSub needle rest with _ | j
      · rw [hj] at h; cases h
      · rw [hj] at h
        cases h
        obtain ⟨pre, post, hpre, hlen⟩ := ih hj
        exact ⟨c :: pre, post, by simp [hpre], by simp [hlen]⟩

theorem findSub_le_length {needle hay : Str} {i : Nat}
    (h : findSub needle hay = some i) : i + needle.length ≤ hay.length := by
  obtain ⟨pre, post, hpre, hlen⟩ := findSub_decomp h
  subst hpre
  simp [hlen.symm]

theorem findSub_getElem {needle hay : Str} {i : Nat}
    (h : findSub needle hay = some i) (k : Nat) (hk : k < needle.length) :
    hay[i + k]? = needle[k]? := by
  obtain ⟨pre, post, hpre, hlen⟩ := findSub_decomp h
  subst hpre
  rw [List.append_assoc, List.getElem?_append_right (by omega),
    show i + k - pre.length = k by omega, List.getElem?_append, if_pos hk]

/-- When both markers are found and the close does not end before the
open begins, the close in fact begins at least three characters after
the open (the markers' characters cannot overlap). -/
theorem close_after_open {input : Str} {start closePos : Nat}
    (ho : findSub openSeq input = some start)
    (hc : findSub closeSeq input = some closePos)
    (hlt : start < closePos + 2) : start + 3 ≤ closePos := by
  by_contra hcon
  have h1 : closePos + 1 = start ∨ closePos = start
      ∨ closePos = start + 1 ∨ closePos = start + 2 := by omega
  have hO0 := findSub_getElem ho 0 (by decide)
  have hO1 := findSub_getElem ho 1 (by decide)
  have hO2 := findSub_getElem ho 2 (by decide)
  have hC0 := findSub_getElem hc 0 (by decide)
  have hC1 := findSub_getElem hc 1 (by decide)
  simp only [Nat.add_zero] at hO0 hC0
  rcases h1 with h1 | h1 | h1 | h1
  · rw [h1] at hC1
    rw [hO0] at hC1
    exact absurd hC1 (by decide)
  · rw [h1] at hC0
    rw [hO0] at hC0
    exact absurd hC0 (by decide)
  · rw [h1] at hC0
    rw [hO1] at hC0
    exact absurd hC0 (by decide)
  · rw [h1] at hC0
    rw [hO2] at hC0
    exact absurd hC0 (by decide)

/-! ## Claim C2: remaining text after the scan -/

/-- C2: on any entry body containing no open marker at all, the scan
loop exits immediately and the rewritten body is empty — the remaining
text is NOT emitted (the source never pushes the leftover `input` into
`processed_body`), so all directive-free content is silently dropped.
This exhibits the divergence from the claimed behavior. -/
theorem C2_remaining_text_dropped (ctx : PreprocessorContext)
    (entry : JournalEntry) (body : Str) (hb : entry.body = some body)
    (hf : findSub openSeq body = none) :
    preprocess_entry ctx entry = .ok { entry with body := some [] } := by
  rw [preprocess_entry, hb]
  show (preprocess_entry_go ctx (body.length + 1) entry body []).bind _
    = .ok { entry with body := some [] }
  rw [preprocess_entry_go]
  simp [hf, Except.bind, pure, Except.pure]

/-- C2 witness: the directive-free body `"hello world"` comes back as
the empty body (its text is dropped). -/
theorem C2_remaining_text_dropped_witness :
    preprocess_entry
      { root := "root".data, sourceDir := "src".data, fs := fun _ => none }
      { title := "Test".data, body := some "hello world".data, path := none }
    = .ok { title := "Test".data, body := some [], path := none } :=
  C2_remaining_text_dropped _ _ "hello world".data rfl (by decide)

/-! ## Claim C5: directive marker matching -/

/-- Modelled from the claim's words, for comparison: the body's markers
are "properly matched" when the scan finds, for each open marker, a
close marker that does not end before it, all the way to a remainder
with no open marker. -/
inductive MatchedMarkers : Str → Prop where
  | done : ∀ s, findSub openSeq s = none → MatchedMarkers s
  | step : ∀ s start closePos, findSub openSeq s = some start →
      findSub closeSeq s = some closePos → start < closePos + 2 →
      MatchedMarkers (s.drop (closePos + 2)) → MatchedMarkers s

/-- Properly matched markers whose directive bodies never carry the
`include` keyword (whose dispatch performs file I/O and may fail). -/
inductive ScanBenign : Str → Prop where
  | done : ∀ s, findSub openSeq s = none → ScanBenign s
  | step : ∀ s start closePos, findSub openSeq s = some start →
      findSub closeSeq s = some closePos → start < closePos + 2 →
      "include".data.isPrefixOf ((s.take closePos).drop (start + 3)) = false →
      ScanBenign (s.drop (closePos + 2)) → ScanBenign s

/-- The dispatch of a directive span cut between found markers always
succeeds when its body does not open with the `include` keyword. -/
theorem preprocess_directive_benign (ctx : PreprocessorContext)
    (entry : JournalEntry) {input : Str} {start closePos : Nat}
    (ho : findSub openSeq input = some start)
    (hc : findSub closeSeq input = some closePos)
    (hlt : start < closePos + 2)
    (hinc : "include".data.isPrefixOf ((input.take closePos).drop (start + 3))
      = false) :
    ∃ r, preprocess_directive ctx entry
      ((input.take (closePos + 2)).drop start) = .ok r := by
  have h3 : start + 3 ≤ closePos := close_after_open ho hc hlt
  obtain ⟨preC, postC, hdC, hlenC⟩ := findSub_decomp hc
  obtain ⟨preO, postO, hdO, hlenO⟩ := findSub_decomp ho
  have hlen2 : (preC ++ closeSeq).length = closePos + 2 := by
    simp [hlenC, closeSeq]
  have htake : input.take (closePos + 2) = preC ++ closeSeq := by
    rw [hdC]
    exact List.take_left' hlen2
  have htakeC : input.take closePos = preC := by
    rw [hdC, List.append_assoc]
    exact List.take_left' hlenC
  have hdirective : (input.take (closePos + 2)).drop start
      = (preC ++ closeSeq).drop start := by rw [htake]
  have hdropO : input.drop start = openSeq ++ postO := by
    rw [hdO]
    have : preO ++ openSeq ++ postO = preO ++ (openSeq ++ postO) :=
      List.append_assoc _ _ _
    rw [this]
    exact List.drop_left' hlenO
  have hsplit : input.drop start
      = (preC ++ closeSeq).drop start ++ postC := by
    rw [hdC]
    exact List.drop_append_of_le_length (by omega)
  have hdirlen : ((preC ++ closeSeq).drop start).length = closePos + 2 - start := by
    simp only [List.length_drop, hlen2]
  have hpre3 : ((preC ++ closeSeq).drop start).take 3 = openSeq := by
    have h1 : (input.drop start).take 3 = openSeq := by
      rw [hdropO]
      exact List.take_left' (by decide)
    rw [hsplit] at h1
    rw [← h1]
    exact (List.take_append_of_le_length (by omega)).symm
  have hprefix : openSeq.isPrefixOf ((preC ++ closeSeq).drop start) = true := by
    apply List.isPrefixOf_iff_prefix.mpr
    exact ⟨((preC ++ closeSeq).drop start).drop 3,
      by rw [← hpre3, List.take_append_drop]⟩
  have hparsed : ((preC ++ closeSeq).drop start).drop 3
      = preC.drop (start + 3) ++ closeSeq := by
    rw [List.drop_drop]
    exact List.drop_append_of_le_length (by omega)
  have hbody : (input.take closePos).drop (start + 3) = preC.drop (start + 3) := by
    rw [htakeC]
  have hdl : dropLit openSeq ((preC ++ closeSeq).drop start)
      = some (((preC ++ closeSeq).drop start).drop 3) := by
    rw [dropLit, if_pos hprefix]
    rfl
  have hds : dropSuffixLit closeSeq (preC.drop (start + 3) ++ closeSeq)
      = some (preC.drop (start + 3)) := by
    rw [dropSuffixLit, if_pos]
    · congr 1
      rw [show (preC.drop (start + 3) ++ closeSeq).length - closeSeq.length
          = (preC.drop (start + 3)).length by simp]
      exact List.take_left _ _
    · exact List.isSuffixOf_iff_suffix.mpr ⟨_, rfl⟩
  rw [hdirective, preprocess_directive]
  simp only [hdl, hparsed, hds]
  rcases ht : dropLit "title".data (preC.drop (start + 3)) with _ | t
  · have hni : dropLit "include".data (preC.drop (start + 3)) = none := by
      rw [hbody] at hinc
      rw [dropLit, if_neg]
      simp [hinc]
    simp only [ht, hni]
    exact ⟨_, rfl⟩
  · simp only [ht]
    exact ⟨_, rfl⟩

/-- The scan loop succeeds on benign, properly matched input when given
enough fuel. -/
theorem preprocess_entry_go_benign {input : Str} (h : ScanBenign input) :
    ∀ ctx entry processed fuel, input.length < fuel →
    ∃ r, preprocess_entry_go ctx fuel entry input processed = .ok r := by
  induction h with
  | done s hf =>
    intro ctx entry processed fuel hfuel
    obtain ⟨fuel, rfl⟩ : ∃ f, fuel = f + 1 := ⟨fuel - 1, by omega⟩
    rw [preprocess_entry_go]
    simp only [hf]
    exact ⟨_, rfl⟩
  | step s start closePos ho hc hlt hinc _ ih =>
    intro ctx entry processed fuel hfuel
    obtain ⟨fuel, rfl⟩ : ∃ f, fuel = f + 1 := ⟨fuel - 1, by omega⟩
    have hslen := findSub_le_length hc
    rw [preprocess_entry_go]
    simp only [ho, hc]
    rw [if_neg (by simp only [closeSeq]; simp; omega)]
    obtain ⟨r, hr⟩ := preprocess_directive_benign ctx entry ho hc hlt hinc
    have : closePos + closeSeq.length = closePos + 2 := by simp [closeSeq]
    rw [this, hr]
    show ∃ q, (preprocess_entry_go ctx fuel r.2 (s.drop (closePos + 2))
      (processed ++ [s.take start, r.1])) = .ok q
    apply ih
    simp only [List.length_drop]
    simp only [closeSeq, List.length_cons] at hslen
    omega

/-- C5 counterexample: the body `"{{#include x}}"` has properly matched
markers, yet preprocessing an entry without a path fails in the include
dispatch — matched markers alone do not guarantee success. -/
theorem C5_matched_markers_can_fail :
    MatchedMarkers "\x7b\x7b#include x\x7d\x7d".data
    ∧ preprocess_entry
        { root := "root".data, sourceDir := "src".data, fs := fun _ => none }
        { title := [], body := some "\x7b\x7b#include x\x7d\x7d".data,
          path := none }
      = .error ("The given journal entry has no file path "
          ++ "and cannot have #include directives").data := by
  constructor
  · exact MatchedMarkers.step _ 0 12 (by decide) (by decide) (by decide)
      (MatchedMarkers.done _ (by decide))
  · rfl

/-- C5 (amended): an open marker with no following close marker fails
with the no-matching-close error; a close marker that ends before the
next open marker begins fails with the inverted-marker error; in
particular `"{{#include"` and `"}}test{{#"` fail for every context; and
a body with properly matched markers succeeds provided its directives
are all title directives or unrecognized keywords (include dispatch,
which reads files, is the one failure source matched markers do not
rule out). -/
theorem C5_directive_scan_errors :
    (∀ ctx fuel entry input processed start,
      findSub openSeq input = some start →
      findSub closeSeq input = none →
      preprocess_entry_go ctx (fuel + 1) entry input processed
        = .error "Cannot find matching closing brace pair".data)
    ∧ (∀ ctx fuel entry input processed start closePos,
      findSub openSeq input = some start →
      findSub closeSeq input = some closePos →
      closePos + 2 ≤ start →
      preprocess_entry_go ctx (fuel + 1) entry input processed
        = .error "Closing brace pair found before opening brace pair".data)
    ∧ (∀ ctx title path,
      preprocess_entry ctx
        { title := title, body := some "\x7b\x7b#include".data, path := path }
      = .error "Cannot find matching closing brace pair".data)
    ∧ (∀ ctx title path,
      preprocess_entry ctx
        { title := title, body := some "\x7d\x7dtest\x7b\x7b#".data,
          path := path }
      = .error "Closing brace pair found before opening brace pair".data)
    ∧ (∀ ctx entry body, entry.body = some body → ScanBenign body →
      ∃ e', preprocess_entry ctx entry = .ok e') := by
  refine ⟨?_, ?_, ?_, ?_, ?_⟩
  · intro ctx fuel entry input processed start ho hc
    rw [preprocess_entry_go]
    simp only [ho, hc]
    rfl
  · intro ctx fuel entry input processed start closePos ho hc hle
    rw [preprocess_entry_go]
    simp only [ho, hc]
    rw [if_pos (by simp only [closeSeq]; simp; omega)]
    rfl
  · intro ctx title path
    rfl
  · intro ctx title path
    rfl
  · intro ctx entry body hb hben
    rw [preprocess_entry, hb]
    obtain ⟨⟨processed, entry'⟩, hr⟩ := preprocess_entry_go_benign hben ctx
      entry [] (body.length + 1) (by omega)
    refine ⟨{ entry' with body := some processed.flatten }, ?_⟩
    show (preprocess_entry_go ctx (body.length + 1) entry body []).bind _
      = .ok _
    rw [hr]
    rfl

/-- C5 witness: the amended theorem applied at concrete inputs — the
two failing bodies, and the benign body `"a{{#title T}}"` which
succeeds. -/
theorem C5_directive_scan_errors_witness :
    preprocess_entry
      { root := "root".data, sourceDir := "src".data, fs := fun _ => none }
      { title := [], body := some "\x7b\x7b#include".data, path := none }
      = .error "Cannot find matching closing brace pair".data
    ∧ ∃ e', preprocess_entry
        { root := "root".data, sourceDir := "src".data, fs := fun _ => none }
        { title := [], body := some "a\x7b\x7b#title T\x7d\x7d".data,
          path := none }
      = .ok e' := by
  constructor
  · exact C5_directive_scan_errors.2.2.1 _ _ _
  · exact C5_directive_scan_errors.2.2.2.2 _ _ "a\x7b\x7b#title T\x7d\x7d".data
      rfl
      (ScanBenign.step _ 1 11 (by decide) (by decide) (by decide) (by decide)
        (ScanBenign.done _ (by decide)))

/-! ## Reduction lemmas for the Except monad -/

theorem ok_bind {α β : Type} (a : α) (f : α → Except PErr β) :
    (Except.ok a >>= f : Except PErr β) = f a := rfl

theorem error_bind {α β : Type} (e : PErr) (f : α → Except PErr β) :
    (Except.error e >>= f : Except PErr β) = .error e := rfl

theorem pure_eq_ok {α : Type} (a : α) : (pure a : Except PErr α) = .ok a := rfl

/-! ## Claim C1: the section-tree nesting invariant -/

/-- Well-formedness of a section tree: every direct child has heading
level strictly greater than its parent's, recursively. -/
inductive SecWF : Section → Prop where
  | mk : ∀ t lv b m secs, (∀ c ∈ secs, lv < c.level) →
      (∀ c, c ∈ secs → SecWF c) → SecWF (Section.mk t lv b m secs)

theorem SecWF.children {t lv b m secs} (h : SecWF (Section.mk t lv b m secs)) :
    ∀ c ∈ secs, lv < c.level ∧ SecWF c := by
  cases h with
  | mk _ _ _ _ _ h1 h2 => exact fun c hc => ⟨h1 c hc, h2 c hc⟩

theorem peekEvent_some {p : CMarkParser} {e : Event}
    (h : CMarkParser.peekEvent p = some e) :
    ∃ o rest, p.events = (e, o) :: rest := by
  cases hev : p.events with
  | nil => rw [CMarkParser.peekEvent, hev] at h; cases h
  | cons x rest =>
    obtain ⟨e', o⟩ := x
    rw [CMarkParser.peekEvent, hev] at h
    cases h
    exact ⟨o, rest, rfl⟩

theorem nextEvent_cons {p : CMarkParser} {e : Event} {o : Nat}
    {rest : List (Event × Nat)} (h : p.events = (e, o) :: rest) :
    CMarkParser.nextEvent p = (some e, { p with events := rest, offset := o }) := by
  rw [CMarkParser.nextEvent, h]

theorem parse_section_head_le (p : CMarkParser) :
    (JournalEntryParser.parse_section_head p).2.2.events.length
      ≤ p.events.length :=
  le_trans (iterUntilGo_length_le isHeadingStart _ _)
    (iterUntilConsumeGo_length_le isHeadingEnd _ _)

/-- The child loop succeeds given enough fuel, only consumes events,
and returns well-formed children of level strictly above the bound. -/
theorem parse_section_loop_spec :
    ∀ fuel level (p : CMarkParser), p.events.length < fuel →
    ∃ secs p', JournalEntryParser.parse_section_loop fuel level p
        = .ok (secs, p')
      ∧ p'.events.length ≤ p.events.length
      ∧ ∀ s ∈ secs, level < s.level ∧ SecWF s := by
  intro fuel
  induction fuel with
  | zero => intro level p h; omega
  | succ fuel ih =>
    intro level p h
    rw [JournalEntryParser.parse_section_loop]
    cases hpk : CMarkParser.peekEvent p with
    | none => exact ⟨[], p, rfl, le_refl _, by simp⟩
    | some e =>
      match e with
      | .Start (.Heading hl) =>
        by_cases hlt : level < hl
        · obtain ⟨o, rest, hev⟩ := peekEvent_some hpk
          have hq : (CMarkParser.nextEvent p).2
              = { p with events := rest, offset := o } := by
            rw [nextEvent_cons hev]
          have hqlen : ({ p with events := rest, offset := o } :
              CMarkParser).events.length + 1 = p.events.length := by
            simp [hev]
          set q := ({ p with events := rest, offset := o } : CMarkParser)
            with hqdef
          have hheadle := parse_section_head_le q
          obtain ⟨children, p2, hch, hch2, hch3⟩ :=
            ih hl (JournalEntryParser.parse_section_head q).2.2 (by omega)
          obtain ⟨siblings, p3, hsib, hsib2, hsib3⟩ :=
            ih level p2 (by omega)
          refine ⟨Section.mk
              (JournalEntryParser.parse_section_head q).1 hl
              (JournalEntryParser.parse_section_head q).2.1 [] children
              :: siblings, p3, ?_, by omega, ?_⟩
          · dsimp only
            rw [if_pos hlt, hq]
            show ((JournalEntryParser.parse_section_loop fuel hl
                (JournalEntryParser.parse_section_head q).2.2) >>= _) = _
            rw [hch, ok_bind]
            dsimp only
            rw [hsib, ok_bind]
            rfl
          · intro s hs
            rcases List.mem_cons.mp hs with hs | hs
            · subst hs
              exact ⟨hlt, SecWF.mk _ _ _ _ _
                (fun c hc => (hch3 c hc).1) (fun c hc => (hch3 c hc).2)⟩
            · exact hsib3 s hs
        · refine ⟨[], p, ?_, le_refl _, by simp⟩
          dsimp only
          rw [if_neg hlt]
          rfl
      | .Start .Paragraph => exact ⟨[], p, rfl, le_refl _, by simp⟩
      | .Start (.CodeBlockFenced i) => exact ⟨[], p, rfl, le_refl _, by simp⟩
      | .Start .CodeBlockIndented => exact ⟨[], p, rfl, le_refl _, by simp⟩
      | .Start (.List i) => exact ⟨[], p, rfl, le_refl _, by simp⟩
      | .Start .Item => exact ⟨[], p, rfl, le_refl _, by simp⟩
      | .Start (.Link i) => exact ⟨[], p, rfl, le_refl _, by simp⟩
      | .Start .Emphasis => exact ⟨[], p, rfl, le_refl _, by simp⟩
      | .Start .BlockQuote => exact ⟨[], p, rfl, le_refl _, by simp⟩
      | .End t => exact ⟨[], p, rfl, le_refl _, by simp⟩
      | .Text s => exact ⟨[], p, rfl, le_refl _, by simp⟩
      | .Code s => exact ⟨[], p, rfl, le_refl _, by simp⟩
      | .Html s => exact ⟨[], p, rfl, le_refl _, by simp⟩
      | .SoftBreak => exact ⟨[], p, rfl, le_refl _, by simp⟩
      | .HardBreak => exact ⟨[], p, rfl, le_refl _, by simp⟩
      | .Rule => exact ⟨[], p, rfl, le_refl _, by simp⟩

/-- The top-level section driver succeeds given enough fuel and returns
only well-formed sections. -/
theorem parse_sections_spec :
    ∀ fuel (p : CMarkParser), p.events.length < fuel →
    ∃ secs p', JournalEntryParser.parse_sections fuel p = .ok (secs, p')
      ∧ ∀ s ∈ secs, SecWF s := by
  intro fuel
  induction fuel with
  | zero => intro p h; omega
  | succ fuel ih =>
    intro p h
    rw [JournalEntryParser.parse_sections]
    cases hev : p.events with
    | nil =>
      refine ⟨[], p, ?_, by simp⟩
      rw [CMarkParser.nextEvent, hev]
      rfl
    | cons x rest =>
      obtain ⟨e, o⟩ := x
      rw [nextEvent_cons hev]
      have hlen : rest.length + 1 = p.events.length := by simp [hev]
      match e with
      | .Start (.Heading hl) =>
        dsimp only
        set q := ({ p with events := rest, offset := o } : CMarkParser)
          with hqdef
        have hql : q.events.length = rest.length := rfl
        have hheadle := parse_section_head_le q
        obtain ⟨children, p2, hch, hch2, hch3⟩ :=
          parse_section_loop_spec fuel hl
            (JournalEntryParser.parse_section_head q).2.2 (by omega)
        obtain ⟨siblings, p3, hsib, hsib3⟩ := ih p2 (by omega)
        refine ⟨Section.mk (JournalEntryParser.parse_section_head q).1 hl
            (JournalEntryParser.parse_section_head q).2.1 [] children
            :: siblings, p3, ?_, ?_⟩
        · show ((JournalEntryParser.parse_section fuel hl q) >>= _) = _
          rw [JournalEntryParser.parse_section]
          show (((JournalEntryParser.parse_section_loop fuel hl
              (JournalEntryParser.parse_section_head q).2.2) >>= _) >>= _) = _
          rw [hch, ok_bind]
          dsimp only
          rw [pure_eq_ok, ok_bind]
          dsimp only
          rw [hsib, ok_bind]
          rfl
        · intro s hs
          rcases List.mem_cons.mp hs with hs | hs
          · subst hs
            exact SecWF.mk _ _ _ _ _
              (fun c hc => (hch3 c hc).1) (fun c hc => (hch3 c hc).2)
          · exact hsib3 s hs
      | .Start .Paragraph => exact ih _ (by show rest.length < fuel; omega)
      | .Start (.CodeBlockFenced i) => exact ih _ (by show rest.length < fuel; omega)
      | .Start .CodeBlockIndented => exact ih _ (by show rest.length < fuel; omega)
      | .Start (.List i) => exact ih _ (by show rest.length < fuel; omega)
      | .Start .Item => exact ih _ (by show rest.length < fuel; omega)
      | .Start (.Link i) => exact ih _ (by show rest.length < fuel; omega)
      | .Start .Emphasis => exact ih _ (by show rest.length < fuel; omega)
      | .Start .BlockQuote => exact ih _ (by show rest.length < fuel; omega)
      | .End t => exact ih _ (by show rest.length < fuel; omega)
      | .Text s => exact ih _ (by show rest.length < fuel; omega)
      | .Code s => exact ih _ (by show rest.length < fuel; omega)
      | .Html s => exact ih _ (by show rest.length < fuel; omega)
      | .SoftBreak => exact ih _ (by show rest.length < fuel; omega)
      | .HardBreak => exact ih _ (by show rest.length < fuel; omega)
      | .Rule => exact ih _ (by show rest.length < fuel; omega)

/-- C1: for every input event stream the section-tree builder succeeds
(no heading sequence is rejected); every section of the result is
well-formed — each direct child's heading level strictly exceeds its
parent's, recursively, so a later shallower heading is never nested
under an earlier deeper one; and the scrambled sequence H3, H2, H1
yields three consecutive siblings at their own levels. -/
theorem C1_section_tree_invariant :
    (∀ source events, ∃ r, JournalEntryParser.parse source events = .ok r)
    ∧ (∀ source events r, JournalEntryParser.parse source events = .ok r →
        ∀ s ∈ r.2, SecWF s)
    ∧ JournalEntryParser.parse []
        [(Event.Start (Tag.Heading 3), 0), (Event.Text "A".data, 1),
         (Event.End (Tag.Heading 3), 2),
         (Event.Start (Tag.Heading 2), 3), (Event.Text "B".data, 4),
         (Event.End (Tag.Heading 2), 5),
         (Event.Start (Tag.Heading 1), 6), (Event.Text "C".data, 7),
         (Event.End (Tag.Heading 1), 8)]
      = .ok (none,
        [Section.mk "A".data 3 [] [] [],
         Section.mk "B".data 2 [] [] [],
         Section.mk "C".data 1 [] [] []]) := by
  have key : ∀ source events, ∃ b secs,
      JournalEntryParser.parse source events = .ok (b, secs)
        ∧ ∀ s ∈ secs, SecWF s := by
    intro source events
    obtain ⟨b, p1, hpb⟩ : ∃ b p1,
        JournalEntryParser.parse_body (CMarkParser.new source events)
          = .ok (b, p1) := ⟨_, _, rfl⟩
    obtain ⟨secs, p2, hps, hwf⟩ :=
      parse_sections_spec (p1.events.length + 1) p1 (by omega)
    refine ⟨b, secs, ?_, hwf⟩
    rw [JournalEntryParser.parse, hpb, ok_bind]
    dsimp only
    rw [hps, ok_bind]
    rfl
  refine ⟨?_, ?_, ?_⟩
  · intro source events
    obtain ⟨b, secs, h, -⟩ := key source events
    exact ⟨_, h⟩
  · intro source events r hr s hs
    obtain ⟨b, secs, h, hwf⟩ := key source events
    rw [h] at hr
    cases hr
    exact hwf s hs
  · rfl

/-- C1 witness: the invariant applied to the scrambled concrete stream;
the first resulting sibling is a well-formed section. -/
theorem C1_section_tree_invariant_witness :
    SecWF (Section.mk "A".data 3 [] [] []) :=
  C1_section_tree_invariant.2.1 []
    [(Event.Start (Tag.Heading 3), 0), (Event.Text "A".data, 1),
     (Event.End (Tag.Heading 3), 2),
     (Event.Start (Tag.Heading 2), 3), (Event.Text "B".data, 4),
     (Event.End (Tag.Heading 2), 5),
     (Event.Start (Tag.Heading 1), 6), (Event.Text "C".data, 7),
     (Event.End (Tag.Heading 1), 8)]
    (none, [Section.mk "A".data 3 [] [] [],
            Section.mk "B".data 2 [] [] [],
            Section.mk "C".data 1 [] [] []]) rfl
    (Section.mk "A".data 3 [] [] []) (List.mem_cons_self _ _)

/-- C9 counterexample: on the event stream containing the single text
event `" "` the parse stores `Some " "` as the entry body even though
the rendered preamble is empty after trim — the code tests plain
emptiness, not emptiness after trim. -/
theorem C9_preamble_not_trimmed :
    JournalEntryParser.parse [] [(Event.Text " ".data, 0)]
      = .ok (some " ".data, [])
    ∧ trim " ".data = [] := by
  constructor
  · rfl
  · decide

/-- C9 (amended): the preamble stored as the entry's optional body is
the rendering of every event strictly before the first heading start,
and it is `None` exactly when that rendered text is the empty string
(no trimming is applied). -/
theorem C9_preamble_body (source : Str) (events : List (Event × Nat))
    (b : Option Str) (secs : List Section)
    (h : JournalEntryParser.parse source events = .ok (b, secs)) :
    b = (if stringify ((events.takeWhile
            (fun x => !(isHeadingStart x.1))).map Prod.fst) = []
         then none
         else some (stringify ((events.takeWhile
            (fun x => !(isHeadingStart x.1))).map Prod.fst))) := by
  obtain ⟨hTake, -⟩ := iterUntilGo_eq_takeWhile isHeadingStart events 0
  have hpb0 : JournalEntryParser.parse_body (CMarkParser.new source events)
      = .ok ((if stringify (CMarkParser.iterUntilGo isHeadingStart events 0).1
                = []
              then none
              else some (stringify
                (CMarkParser.iterUntilGo isHeadingStart events 0).1)),
             (fun p1 => if (CMarkParser.peekEvent p1).isNone
                then (CMarkParser.nextEvent p1).2 else p1)
               ((CMarkParser.iterUntil isHeadingStart
                 (CMarkParser.new source events)).2)) := rfl
  rw [hTake] at hpb0
  obtain ⟨p', hpb⟩ : ∃ p', JournalEntryParser.parse_body
      (CMarkParser.new source events)
      = .ok ((if stringify ((events.takeWhile
            (fun x => !(isHeadingStart x.1))).map Prod.fst) = []
         then none
         else some (stringify ((events.takeWhile
            (fun x => !(isHeadingStart x.1))).map Prod.fst))), p') :=
    ⟨_, hpb0⟩
  rw [JournalEntryParser.parse] at h
  rw [hpb] at h
  rw [ok_bind] at h
  dsimp only at h
  rcases hs : JournalEntryParser.parse_sections (p'.events.length + 1) p' with
    e | s
  · rw [hs, error_bind] at h
    cases h
  · rw [hs, ok_bind, pure_eq_ok] at h
    simp only [Except.ok.injEq, Prod.mk.injEq] at h
    exact h.1.symm

/-- C9 witness: the amended characterization applied to the concrete
stream text-then-heading, whose preamble renders to `"T"`. -/
theorem C9_preamble_body_witness :
    (some "T".data : Option Str)
      = (if stringify (([( Event.Text "T".data, (0:Nat) ),
            (Event.Start (Tag.Heading 1), 1)].takeWhile
            (fun x => !(isHeadingStart x.1))).map Prod.fst) = []
         then none
         else some (stringify (([(Event.Text "T".data, (0:Nat)),
            (Event.Start (Tag.Heading 1), 1)].takeWhile
            (fun x => !(isHeadingStart x.1))).map Prod.fst))) :=
  C9_preamble_body [] _ _ [Section.mk [] 1 [] [] []] rfl

/-! ## Claim C10: parse_link locations -/

/-- C10: `parse_link` always succeeds (an empty-target link is accepted
rather than rejected), producing a link whose `location` is `None`
exactly when the `%20`-unescaped href is empty, and otherwise `Some` of
the unescaped href; the link is created with no nested items. -/
theorem C10_parse_link_location (href : Str) (p : CMarkParser) :
    ∃ name p', TOCParser.parse_link href p
      = .ok (TOCItem.Link name
          (if TOCParser.unescapeHref href = [] then none
           else some (TOCParser.unescapeHref href)) [], p') :=
  ⟨_, _, rfl⟩

/-! ## Claim C3: nested item attachment -/

/-- True when a TOC item carries no nested items (links with an empty
nested run; titles and separators trivially). -/
def noNested : TOCItem → Bool
  | .Link _ _ n => n.isEmpty
  | _ => true

theorem parse_link_shape {href : Str} {p : CMarkParser} {it : TOCItem}
    {p' : CMarkParser} (h : TOCParser.parse_link href p = .ok (it, p')) :
    noNested it = true ∧ p'.events <:+ p.events := by
  have he : TOCParser.parse_link href p
      = .ok (TOCItem.Link (stringify
          (((CMarkParser.iterUntilConsume isLinkEnd p).1).map (fun e =>
            match e with
            | .SoftBreak => Event.Text " ".data
            | other => other)))
          (if TOCParser.unescapeHref href = [] then none
           else some (TOCParser.unescapeHref href)) [],
          (CMarkParser.iterUntilConsume isLinkEnd p).2) := rfl
  rw [he] at h
  cases h
  exact ⟨by rfl, iterUntilConsumeGo_events_suffix isLinkEnd p.events p.offset⟩

theorem parse_toc_item_spec :
    ∀ fuel (p : CMarkParser) (it : TOCItem) (p' : CMarkParser),
    TOCParser.parse_toc_item fuel p = .ok (it, p') →
    noNested it = true ∧ p'.events <:+ p.events := by
  intro fuel
  induction fuel with
  | zero => intro p it p' h; cases h
  | succ fuel ih =>
    intro p it p' h
    rw [TOCParser.parse_toc_item] at h
    cases hev : p.events with
    | nil =>
      rw [CMarkParser.nextEvent, hev] at h
      cases h
    | cons x rest =>
      obtain ⟨e, o⟩ := x
      rw [nextEvent_cons hev] at h
      match e with
      | .Start .Paragraph =>
        obtain ⟨h1, h2⟩ := ih _ _ _ h
        exact ⟨h1, h2.trans (List.suffix_cons _ _)⟩
      | .Start (.Link href) =>
        obtain ⟨h1, h2⟩ := parse_link_shape h
        exact ⟨h1, h2.trans (List.suffix_cons _ _)⟩
      | .Start (.Heading hl) => cases h
      | .Start (.CodeBlockFenced i) => cases h
      | .Start .CodeBlockIndented => cases h
      | .Start (.List i) => cases h
      | .Start .Item => cases h
      | .Start .Emphasis => cases h
      | .Start .BlockQuote => cases h
      | .End t => cases h
      | .Text s => cases h
      | .Code s => cases h
      | .Html s => cases h
      | .SoftBreak => cases h
      | .HardBreak => cases h
      | .Rule => cases h

/-- C3 counterexample: a list start with no prior item in the run is
followed by an item; the item is parsed into the run rather than
discarded — the sub-list's content survives. -/
theorem C3_sublist_content_not_discarded :
    TOCParser.parse []
      [(Event.Start (Tag.List false), 0), (Event.Start Tag.Item, 1),
       (Event.Start (Tag.Link "a.md".data), 2), (Event.Text "A".data, 3),
       (Event.End (Tag.Link "a.md".data), 4), (Event.End Tag.Item, 5),
       (Event.End (Tag.List false), 6)]
      = .ok (none, [TOCItem.Link "A".data (some "a.md".data) []])
    ∧ [TOCItem.Link "A".data (some "a.md".data) []] ≠ ([] : List TOCItem) := by
  exact ⟨rfl, by simp⟩

/-- C3 (amended): a list start encountered when no item has yet been
parsed in the current run (or when the last parsed item is not a link)
only skips the list-start event itself — the sub-list's content is then
parsed inline into the current run, not discarded; and
`Link.nested_items` are populated only from a sub-list parsed in the
list-start branch when the run's last item is a link: links are created
with empty nested items, and on any stream containing no list-start
event every resulting item keeps empty nested items. -/
theorem C3_nested_item_attachment :
    (∀ fuel (p : CMarkParser) b o rest,
      p.events = (Event.Start (Tag.List b), o) :: rest →
      TOCParser.parse_toc_items (fuel + 1) p []
        = TOCParser.parse_toc_items fuel
            { p with events := rest, offset := o } [])
    ∧ (∀ fuel (p : CMarkParser) b o rest items it,
      p.events = (Event.Start (Tag.List b), o) :: rest →
      items.getLast? = some it → it.maybe_link = none →
      TOCParser.parse_toc_items (fuel + 1) p items
        = TOCParser.parse_toc_items fuel
            { p with events := rest, offset := o } items)
    ∧ (∀ fuel (p : CMarkParser) acc res,
      (∀ x ∈ p.events, ∀ b, x.1 ≠ Event.Start (Tag.List b)) →
      (∀ it ∈ acc, noNested it = true) →
      TOCParser.parse_toc_items fuel p acc = .ok res →
      ∀ it ∈ res.1, noNested it = true) := by
  refine ⟨?_, ?_, ?_⟩
  · intro fuel p b o rest hev
    rw [TOCParser.parse_toc_items]
    have hpk : CMarkParser.peekEvent p = some (Event.Start (Tag.List b)) := by
      rw [CMarkParser.peekEvent, hev]
    rw [hpk]
    dsimp only
    rw [nextEvent_cons hev]
    rfl
  · intro fuel p b o rest items it hev hlast hml
    have hne : items.isEmpty = false := by
      cases items with
      | nil => cases hlast
      | cons a l => rfl
    rw [TOCParser.parse_toc_items]
    have hpk : CMarkParser.peekEvent p = some (Event.Start (Tag.List b)) := by
      rw [CMarkParser.peekEvent, hev]
    rw [hpk]
    dsimp only
    rw [nextEvent_cons hev]
    rw [if_neg (by rw [hne]; exact Bool.false_ne_true)]
    rw [hlast]
    match it, hml with
    | .SectionTitle t, _ => rfl
    | .Separator, _ => rfl
  · intro fuel
    induction fuel with
    | zero => intro p acc res _ _ h; cases h
    | succ fuel ih =>
      intro p acc res hnolist hacc h
      rw [TOCParser.parse_toc_items] at h
      cases hev : p.events with
      | nil =>
        have hpk : CMarkParser.peekEvent p = none := by
          rw [CMarkParser.peekEvent, hev]
        rw [hpk] at h
        cases h
        exact hacc
      | cons x rest =>
        obtain ⟨e, o⟩ := x
        have hpk : CMarkParser.peekEvent p = some e := by
          rw [CMarkParser.peekEvent, hev]
        rw [hpk] at h
        have hsub : ∀ x ∈ rest, ∀ b, x.1 ≠ Event.Start (Tag.List b) := by
          intro x hx
          exact hnolist x (by rw [hev]; exact List.mem_cons_of_mem _ hx)
        match e with
        | .Start (.Heading 1) =>
          dsimp only at h
          cases h
          exact hacc
        | .Start (.List b) =>
          have hm : (Event.Start (Tag.List b), o) ∈ p.events := by
            rw [hev]
            exact List.mem_cons_self _ _
          exact absurd rfl (hnolist _ hm b)
        | .Start .Item =>
          dsimp only at h
          rw [nextEvent_cons hev] at h
          dsimp only at h
          rcases hit : TOCParser.parse_toc_item fuel
              { p with events := rest, offset := o } with err | ⟨it, p2⟩
          · rw [hit, error_bind] at h
            cases h
          · rw [hit, ok_bind] at h
            dsimp only at h
            obtain ⟨hn, hsuf⟩ := parse_toc_item_spec _ _ _ _ hit
            refine ih p2 (acc ++ [it]) res ?_ ?_ h
            · intro x hx
              exact hsub x (hsuf.subset hx)
            · intro j hj
              rcases List.mem_append.mp hj with hj | hj
              · exact hacc j hj
              · rw [List.mem_singleton.mp hj]
                exact hn
        | .End (.List b) =>
          dsimp only at h
          cases h
          exact hacc
        | .Start (.Heading 2) =>
          dsimp only at h
          refine ih _ acc res ?_ hacc h
          intro x hx
          exact hnolist x
            ((iterUntilConsumeGo_events_suffix _ p.events p.offset).subset hx)
        | .Start .Paragraph =>
          dsimp only at h
          refine ih _ acc res ?_ hacc h
          intro x hx
          exact hnolist x
            ((iterUntilConsumeGo_events_suffix _ p.events p.offset).subset hx)
        | .Start (.CodeBlockFenced i) =>
          dsimp only at h
          refine ih _ acc res ?_ hacc h
          intro x hx
          exact hnolist x
            ((iterUntilConsumeGo_events_suffix _ p.events p.offset).subset hx)
        | .Start .CodeBlockIndented =>
          dsimp only at h
          refine ih _ acc res ?_ hacc h
          intro x hx
          exact hnolist x
            ((iterUntilConsumeGo_events_suffix _ p.events p.offset).subset hx)
        | .Start (.Link href) =>
          dsimp only at h
          refine ih _ acc res ?_ hacc h
          intro x hx
          exact hnolist x
            ((iterUntilConsumeGo_events_suffix _ p.events p.offset).subset hx)
        | .Start .Emphasis =>
          dsimp only at h
          refine ih _ acc res ?_ hacc h
          intro x hx
          exact hnolist x
            ((iterUntilConsumeGo_events_suffix _ p.events p.offset).subset hx)
        | .Start .BlockQuote =>
          dsimp only at h
          refine ih _ acc res ?_ hacc h
          intro x hx
          exact hnolist x
            ((iterUntilConsumeGo_events_suffix _ p.events p.offset).subset hx)
        | .Start (.Heading 0) =>
          dsimp only at h
          refine ih _ acc res ?_ hacc h
          intro x hx
          exact hnolist x
            ((iterUntilConsumeGo_events_suffix _ p.events p.offset).subset hx)
        | .Start (.Heading (n + 2)) =>
          dsimp only at h
          refine ih _ acc res ?_ hacc h
          intro x hx
          exact hnolist x
            ((iterUntilConsumeGo_events_suffix _ p.events p.offset).subset hx)
        | .Rule =>
          dsimp only at h
          rw [nextEvent_cons hev] at h
          refine ih _ (acc ++ [TOCItem.Separator]) res hsub ?_ h
          intro j hj
          rcases List.mem_append.mp hj with hj | hj
          · exact hacc j hj
          · rw [List.mem_singleton.mp hj]
            rfl
        | .End (.Heading n) =>
          dsimp only at h
          rw [nextEvent_cons hev] at h
          exact ih _ acc res hsub hacc h
        | .End .Paragraph =>
          dsimp only at h
          rw [nextEvent_cons hev] at h
          exact ih _ acc res hsub hacc h
        | .End (.CodeBlockFenced i) =>
          dsimp only at h
          rw [nextEvent_cons hev] at h
          exact ih _ acc res hsub hacc h
        | .End .CodeBlockIndented =>
          dsimp only at h
          rw [nextEvent_cons hev] at h
          exact ih _ acc res hsub hacc h
        | .End .Item =>
          dsimp only at h
          rw [nextEvent_cons hev] at h
          exact ih _ acc res hsub hacc h
        | .End (.Link href) =>
          dsimp only at h
          rw [nextEvent_cons hev] at h
          exact ih _ acc res hsub hacc h
        | .End .Emphasis =>
          dsimp only at h
          rw [nextEvent_cons hev] at h
          exact ih _ acc res hsub hacc h
        | .End .BlockQuote =>
          dsimp only at h
          rw [nextEvent_cons hev] at h
          exact ih _ acc res hsub hacc h
        | .Text s =>
          dsimp only at h
          rw [nextEvent_cons hev] at h
          exact ih _ acc res hsub hacc h
        | .Code s =>
          dsimp only at h
          rw [nextEvent_cons hev] at h
          exact ih _ acc res hsub hacc h
        | .Html s =>
          dsimp only at h
          rw [nextEvent_cons hev] at h
          exact ih _ acc res hsub hacc h
        | .SoftBreak =>
          dsimp only at h
          rw [nextEvent_cons hev] at h
          exact ih _ acc res hsub hacc h
        | .HardBreak =>
          dsimp only at h
          rw [nextEvent_cons hev] at h
          exact ih _ acc res hsub hacc h

/-! ## Drain lemmas with a stopping event -/

theorem iterUntilGo_stops (pred : Event → Bool) :
    ∀ (pre rest : List (Event × Nat)) (off : Nat),
    (∀ x ∈ pre, pred x.1 = false) →
    (rest = [] ∨ ∃ e o rest', rest = (e, o) :: rest' ∧ pred e = true) →
    CMarkParser.iterUntilGo pred (pre ++ rest) off
      = (pre.map Prod.fst, rest, (pre.map Prod.snd).getLastD off) := by
  intro pre
  induction pre with
  | nil =>
    intro rest off _ hrest
    rcases hrest with rfl | ⟨e, o, rest', rfl, he⟩
    · rfl
    · simp [CMarkParser.iterUntilGo, he]
  | cons x xs ih =>
    intro rest off hpre hrest
    obtain ⟨ex, ox⟩ := x
    have hx : pred ex = false := hpre (ex, ox) (List.mem_cons_self _ _)
    rw [List.cons_append, CMarkParser.iterUntilGo]
    rw [if_neg (by rw [hx]; exact Bool.false_ne_true)]
    rw [ih rest ox (fun y hy => hpre y (List.mem_cons_of_mem _ hy)) hrest]
    dsimp only
    simp only [List.map_cons, List.getLastD_cons]

theorem iterUntilConsumeGo_stops (pred : Event → Bool) :
    ∀ (pre : List (Event × Nat)) (e : Event) (o : Nat)
      (rest : List (Event × Nat)) (off : Nat),
    (∀ x ∈ pre, pred x.1 = false) → pred e = true →
    CMarkParser.iterUntilConsumeGo pred (pre ++ (e, o) :: rest) off
      = (pre.map Prod.fst, rest, o) := by
  intro pre
  induction pre with
  | nil =>
    intro e o rest off _ he
    simp [CMarkParser.iterUntilConsumeGo, he]
  | cons x xs ih =>
    intro e o rest off hpre he
    obtain ⟨ex, ox⟩ := x
    have hx : pred ex = false := hpre (ex, ox) (List.mem_cons_self _ _)
    rw [List.cons_append, CMarkParser.iterUntilConsumeGo]
    rw [if_neg (by rw [hx]; exact Bool.false_ne_true)]
    rw [ih e o rest ox (fun y hy => hpre y (List.mem_cons_of_mem _ hy)) he]
    dsimp only
    simp only [List.map_cons]

/-- The consuming drain, at the cursor level: with a clean prefix and a
a matching event after it, it collects the prefix and leaves the cursor
just past the match. -/
theorem iterUntilConsume_stops (pred : Event → Bool) (p : CMarkParser)
    (pre : List (Event × Nat)) (e : Event) (o : Nat)
    (rest : List (Event × Nat)) (hev : p.events = pre ++ (e, o) :: rest)
    (hpre : ∀ x ∈ pre, pred x.1 = false) (he : pred e = true) :
    CMarkParser.iterUntilConsume pred p
      = (pre.map Prod.fst, { p with events := rest, offset := o }) := by
  show ((CMarkParser.iterUntilConsumeGo pred p.events p.offset).1,
    { p with
      events := (CMarkParser.iterUntilConsumeGo pred p.events p.offset).2.1,
      offset := (CMarkParser.iterUntilConsumeGo pred p.events p.offset).2.2 })
    = _
  rw [hev, iterUntilConsumeGo_stops pred pre e o rest p.offset hpre he]

/-- The non-consuming drain, at the cursor level: with a clean prefix
and either stream end or a matching event after it, it collects the
prefix and leaves the cursor before the match, with the offset of the
last collected event. -/
theorem iterUntil_stops (pred : Event → Bool) (p : CMarkParser)
    (pre rest : List (Event × Nat)) (hev : p.events = pre ++ rest)
    (hpre : ∀ x ∈ pre, pred x.1 = false)
    (hrest : rest = [] ∨ ∃ e o rest', rest = (e, o) :: rest'
      ∧ pred e = true) :
    CMarkParser.iterUntil pred p
      = (pre.map Prod.fst,
         { p with events := rest,
                  offset := (pre.map Prod.snd).getLastD p.offset }) := by
  show ((CMarkParser.iterUntilGo pred p.events p.offset).1,
    { p with
      events := (CMarkParser.iterUntilGo pred p.events p.offset).2.1,
      offset := (CMarkParser.iterUntilGo pred p.events p.offset).2.2 })
    = _
  rw [hev, iterUntilGo_stops pred pre rest p.offset hpre hrest]

/-! ## Claim C4: metadata extraction -/

/-- C4: whenever the event stream opens with a fenced code block whose
info string, split on commas and trimmed, is `[lang, "metadata", key]`,
the extraction loop consumes the block through its end, records
`key → {lang, data}` with `data` the rendering of the enclosed events,
and pushes a blank double line-break in place of the block; a nonempty
run of events before the next metadata block start is rendered through
to the body unchanged; and the concrete body
`"S\n```toml,metadata,test\nDATA\n```\nT"` yields metadata
`{"test" → {toml, "DATA\n"}}` and body `"S\n\nT"`. -/
theorem C4_metadata_extraction :
    (∀ fuel (p : CMarkParser) tag o1 inner tag2 o2 post body md,
      p.events = (Event.Start (Tag.CodeBlockFenced tag), o1) :: inner
        ++ (Event.End (Tag.CodeBlockFenced tag2), o2) :: post →
      is_metadata_block tag = true →
      (∀ x ∈ inner, isFencedEnd x.1 = false) →
      extract_metadata_go (fuel + 1) p body md
        = extract_metadata_go fuel { p with events := post, offset := o2 }
            (body ++ [['\n', '\n']])
            (mapInsert md (parse_metadata_tag tag).2
              { lang := (parse_metadata_tag tag).1,
                data := stringify (inner.map Prod.fst) }))
    ∧ (∀ fuel (p : CMarkParser) pre post body md,
      p.events = pre ++ post → pre ≠ [] →
      (∀ x ∈ pre, isMetadataStart x.1 = false) →
      (post = [] ∨ ∃ e o post', post = (e, o) :: post'
        ∧ isMetadataStart e = true) →
      extract_metadata_go (fuel + 1) p body md
        = extract_metadata_go fuel
            { p with events := post,
                     offset := (pre.map Prod.snd).getLastD p.offset }
            (body ++ [stringify (pre.map Prod.fst)]) md)
    ∧ extract_metadata
        (Section.mk "test".data 1
          "S\n```toml,metadata,test\nDATA\n```\nT".data [] [])
      = .ok (Section.mk "test".data 1 "S\n\nT".data
          [("test".data,
            { lang := "toml".data, data := "DATA\n".data })] []) := by
  refine ⟨?_, ?_, rfl⟩
  · intro fuel p tag o1 inner tag2 o2 post body md hev hmeta hinner
    have hpk : CMarkParser.peekEvent p
        = some (Event.Start (Tag.CodeBlockFenced tag)) := by
      rw [CMarkParser.peekEvent, hev]
      rfl
    rw [extract_metadata_go, hpk]
    try dsimp only
    rw [hmeta]
    try dsimp only
    rw [nextEvent_cons hev]
    try dsimp only
    rw [iterUntilConsume_stops isFencedEnd _ inner
      (Event.End (Tag.CodeBlockFenced tag2)) o2 post rfl hinner rfl]
    rfl
  · intro fuel p pre post body md hev hne hpre hpost
    obtain ⟨x, xs, rfl⟩ : ∃ x xs, pre = x :: xs := by
      cases pre with
      | nil => exact absurd rfl hne
      | cons x xs => exact ⟨x, xs, rfl⟩
    obtain ⟨ex, ox⟩ := x
    have hx : isMetadataStart ex = false :=
      hpre (ex, ox) (List.mem_cons_self _ _)
    have hpk : CMarkParser.peekEvent p = some ex := by
      rw [CMarkParser.peekEvent, hev]
      rfl
    have hstops := iterUntil_stops isMetadataStart p ((ex, ox) :: xs) post
      hev hpre hpost
    rw [extract_metadata_go, hpk]
    match ex, hx with
    | .Start (.CodeBlockFenced tag), hx =>
      try dsimp only
      rw [show is_metadata_block tag = false from by
        rw [isMetadataStart] at hx
        exact hx]
      try dsimp only
      rw [hstops]
      rfl
    | .Start .Paragraph, _ => (try dsimp only); rw [hstops]
    | .Start .CodeBlockIndented, _ => (try dsimp only); rw [hstops]
    | .Start (.Heading hl), _ => (try dsimp only); rw [hstops]
    | .Start (.List bb), _ => (try dsimp only); rw [hstops]
    | .Start .Item, _ => (try dsimp only); rw [hstops]
    | .Start (.Link href), _ => (try dsimp only); rw [hstops]
    | .Start .Emphasis, _ => (try dsimp only); rw [hstops]
    | .Start .BlockQuote, _ => (try dsimp only); rw [hstops]
    | .End t, _ => (try dsimp only); rw [hstops]
    | .Text s, _ => (try dsimp only); rw [hstops]
    | .Code s, _ => (try dsimp only); rw [hstops]
    | .Html s, _ => (try dsimp only); rw [hstops]
    | .SoftBreak, _ => (try dsimp only); rw [hstops]
    | .HardBreak, _ => (try dsimp only); rw [hstops]
    | .Rule, _ => (try dsimp only); rw [hstops]

/-- C4 witness: the metadata step applied to a concrete one-block
stream. -/
theorem C4_metadata_extraction_witness :
    extract_metadata_go 2
      (CMarkParser.new []
        [(Event.Start (Tag.CodeBlockFenced "a,metadata,k".data), 0),
         (Event.Text "D\n".data, 1),
         (Event.End (Tag.CodeBlockFenced "a,metadata,k".data), 2)]) [] []
      = extract_metadata_go 1 (CMarkParser.mk [] [] 2) [['\n', '\n']]
          (mapInsert []
            (parse_metadata_tag "a,metadata,k".data).2
            { lang := (parse_metadata_tag "a,metadata,k".data).1,
              data := stringify [Event.Text "D\n".data] }) :=
  C4_metadata_extraction.1 1 _ "a,metadata,k".data 0
    [(Event.Text "D\n".data, 1)] "a,metadata,k".data 2 [] [] []
    rfl (by decide) (by decide)

/-! ## Claim C8: non-link item content fails with a positioned error -/

/-- C8: inside a list item, after skipping any leading paragraph starts,
a first meaningful event that is not a link start makes
`parse_toc_item` fail with the items-must-only-contain-links message at
the cursor position of the offending event; at the run level an
interleaved raw-HTML comment is transparently skipped, never an error;
and the failure propagates so the parser produces no TOC — on the
concrete source `"* x"` whose item holds a paragraph of text, the whole
parse returns the wrapped positioned error. -/
theorem C8_item_must_contain_links :
    (∀ paras fuel (p : CMarkParser) e o rest,
      p.events = paras ++ (e, o) :: rest →
      (∀ x ∈ paras, x.1 = Event.Start Tag.Paragraph) →
      e ≠ Event.Start Tag.Paragraph →
      (∀ href, e ≠ Event.Start (Tag.Link href)) →
      paras.length < fuel →
      TOCParser.parse_toc_item fuel p
        = .error (TOCParser.parse_error
            { p with events := rest, offset := o }
            "Items in the table of contents must only contain links.".data))
    ∧ (∀ fuel (p : CMarkParser) s o rest acc,
      p.events = (Event.Html s, o) :: rest →
      TOCParser.parse_toc_items (fuel + 1) p acc
        = TOCParser.parse_toc_items fuel
            { p with events := rest, offset := o } acc)
    ∧ TOCParser.parse "* x".data
        [(Event.Start (Tag.List false), 0), (Event.Start Tag.Item, 0),
         (Event.Start Tag.Paragraph, 2), (Event.Text "x".data, 2),
         (Event.End Tag.Paragraph, 2), (Event.End Tag.Item, 0),
         (Event.End (Tag.List false), 0)]
      = .error ("There was an error parsing TOC entries: ".data
          ++ "failed to parse JOURNAL.md line: 1, column: 2: ".data
          ++ "Items in the table of contents must only contain links.".data)
      := by
  refine ⟨?_, ?_, ?_⟩
  · intro paras
    induction paras with
    | nil =>
      intro fuel p e o rest hev hparas he1 he2 hfuel
      obtain ⟨fuel, rfl⟩ : ∃ f, fuel = f + 1 := ⟨fuel - 1, by omega⟩
      rw [TOCParser.parse_toc_item]
      rw [List.nil_append] at hev
      rw [nextEvent_cons hev]
      match e, he1, he2 with
      | .Start .Paragraph, he1, _ => exact absurd rfl he1
      | .Start (.Link href), _, he2 => exact absurd rfl (he2 href)
      | .Start (.Heading hl), _, _ => rfl
      | .Start (.CodeBlockFenced i), _, _ => rfl
      | .Start .CodeBlockIndented, _, _ => rfl
      | .Start (.List bb), _, _ => rfl
      | .Start .Item, _, _ => rfl
      | .Start .Emphasis, _, _ => rfl
      | .Start .BlockQuote, _, _ => rfl
      | .End t, _, _ => rfl
      | .Text s, _, _ => rfl
      | .Code s, _, _ => rfl
      | .Html s, _, _ => rfl
      | .SoftBreak, _, _ => rfl
      | .HardBreak, _, _ => rfl
      | .Rule, _, _ => rfl
    | cons x xs ihp =>
      intro fuel p e o rest hev hparas he1 he2 hfuel
      obtain ⟨fuel, rfl⟩ : ∃ f, fuel = f + 1 := ⟨fuel - 1, by omega⟩
      obtain ⟨ex, o'⟩ := x
      have hx : ex = Event.Start Tag.Paragraph :=
        hparas (ex, o') (List.mem_cons_self _ _)
      subst hx
      rw [List.cons_append] at hev
      rw [TOCParser.parse_toc_item, nextEvent_cons hev]
      exact ihp fuel _ e o rest rfl
        (fun y hy => hparas y (List.mem_cons_of_mem _ hy)) he1 he2
        (by simp at hfuel ⊢; omega)
  · intro fuel p s o rest acc hev
    have hpk : CMarkParser.peekEvent p = some (Event.Html s) := by
      rw [CMarkParser.peekEvent, hev]
    rw [TOCParser.parse_toc_items, hpk]
    dsimp only
    rw [nextEvent_cons hev]
  · rfl

/-- C8 witness: the error characterization applied to a concrete item
stream whose first meaningful event is plain text. -/
theorem C8_item_must_contain_links_witness :
    TOCParser.parse_toc_item 2
      (CMarkParser.new "* x".data
        [(Event.Start Tag.Paragraph, 1), (Event.Text "x".data, 2)])
      = .error (TOCParser.parse_error (CMarkParser.mk "* x".data [] 2)
          "Items in the table of contents must only contain links.".data) :=
  C8_item_must_contain_links.1 [(Event.Start Tag.Paragraph, 1)] 2 _
    (Event.Text "x".data) 2 [] rfl
    (by intro x hx; rw [List.mem_singleton.mp hx])
    (by intro hcon; cases hcon)
    (by intro href hcon; cases hcon)
    (by decide)

/-- C3 witness: the amended theorem's parts applied at concrete inputs —
the skip equation on a one-event stream, and the no-list property on a
single bare item run. -/
theorem C3_nested_item_attachment_witness :
    TOCParser.parse_toc_items 3
      (CMarkParser.new [] [(Event.Start (Tag.List false), 0)]) []
      = TOCParser.parse_toc_items 2 (CMarkParser.mk [] [] 0) []
    ∧ noNested (TOCItem.Link "A".data (some "a.md".data) []) = true := by
  constructor
  · exact C3_nested_item_attachment.1 2 _ false 0 [] rfl
  · exact C3_nested_item_attachment.2.2 4
      (CMarkParser.new []
        [(Event.Start Tag.Item, 0),
         (Event.Start (Tag.Link "a.md".data), 1), (Event.Text "A".data, 2),
         (Event.End (Tag.Link "a.md".data), 3), (Event.End Tag.Item, 4)])
      [] (([TOCItem.Link "A".data (some "a.md".data) []],
        CMarkParser.mk [] [] 4))
      (by decide) (by simp) rfl
      (TOCItem.Link "A".data (some "a.md".data) [])
      (List.mem_singleton.mpr rfl)

/-! ## Claim C6: support — line splitting and trimming -/

theorem splitOnChar_ne_nil (c : Char) (s : Str) : splitOnChar c s ≠ [] := by
  induction s with
  | nil => simp [splitOnChar]
  | cons x rest ih =>
    rw [splitOnChar]
    split
    · simp
    · rcases h : splitOnChar c rest with _ | ⟨hd, tl⟩
      · exact absurd h ih
      · simp

theorem splitOnChar_cons_sep (c : Char) (b : Str) :
    splitOnChar c (c :: b) = [] :: splitOnChar c b := by
  rw [splitOnChar, if_pos rfl]

theorem splitOnChar_cons_ne (c x : Char) (b : Str) (hx : ¬x = c) :
    splitOnChar c (x :: b)
      = (x :: (splitOnChar c b).headI) :: (splitOnChar c b).tail := by
  rw [splitOnChar]
  rw [if_neg hx]
  rcases h : splitOnChar c b with _ | ⟨hd, tl⟩
  · exact absurd h (splitOnChar_ne_nil c b)
  · simp [List.headI]

theorem splitOnChar_append_cons (c : Char) (a b : Str) :
    splitOnChar c (a ++ c :: b) = splitOnChar c a ++ splitOnChar c b := by
  induction a with
  | nil =>
    rw [List.nil_append, splitOnChar_cons_sep]
    rfl
  | cons x a' ih =>
    by_cases hx : x = c
    · subst hx
      rw [List.cons_append, splitOnChar_cons_sep, splitOnChar_cons_sep, ih]
      rfl
    · rw [List.cons_append, splitOnChar_cons_ne c x _ hx,
        splitOnChar_cons_ne c x _ hx, ih]
      rcases h : splitOnChar c a' with _ | ⟨hd, tl⟩
      · exact absurd h (splitOnChar_ne_nil c a')
      · simp [List.headI]

theorem splitOnChar_no_sep (c : Char) :
    ∀ s : Str, ∀ l ∈ splitOnChar c s, c ∉ l := by
  intro s
  induction s with
  | nil =>
    intro l hl
    rw [show splitOnChar c [] = [[]] from rfl] at hl
    rw [List.mem_singleton.mp hl]
    simp
  | cons x rest ih =>
    intro l hl
    by_cases hx : x = c
    · subst hx
      rw [splitOnChar_cons_sep] at hl
      rcases List.mem_cons.mp hl with rfl | hl
      · simp
      · exact ih l hl
    · rw [splitOnChar_cons_ne c x _ hx] at hl
      rcases List.mem_cons.mp hl with rfl | hl
      · intro hc
        rcases List.mem_cons.mp hc with rfl | hc
        · exact hx rfl
        · rcases hsp : splitOnChar c rest with _ | ⟨hd, tl⟩
          · exact absurd hsp (splitOnChar_ne_nil c rest)
          · refine ih hd ?_ ?_
            · rw [hsp]; exact List.mem_cons_self _ _
            · rw [hsp] at hc
              simpa [List.headI] using hc
      · rcases hsp : splitOnChar c rest with _ | ⟨hd, tl⟩
        · exact absurd hsp (splitOnChar_ne_nil c rest)
        · refine ih l ?_
          rw [hsp]
          rw [hsp] at hl
          simp only [List.tail] at hl
          exact List.mem_cons_of_mem _ hl

theorem trim_dropWhile_fixed (s : Str) :
    (trim s).dropWhile Char.isWhitespace = trim s := by
  rw [trim]
  set t := s.dropWhile Char.isWhitespace with ht
  have htf : t.dropWhile Char.isWhitespace = t := by
    rw [ht]
    exact List.dropWhile_idempotent _ _
  have hpre : (t.reverse.dropWhile Char.isWhitespace).reverse <+: t := by
    have h := List.rdropWhile_prefix Char.isWhitespace t
    simpa [List.rdropWhile] using h
  rcases hr : (t.reverse.dropWhile Char.isWhitespace).reverse with _ | ⟨a, u⟩
  · rfl
  · rw [hr] at hpre
    obtain ⟨w, hw⟩ := hpre
    have hna : ¬ (Char.isWhitespace a = true) := by
      intro ha
      have h1 : t.dropWhile Char.isWhitespace
          = (u ++ w).dropWhile Char.isWhitespace := by
        rw [← hw, List.cons_append, List.dropWhile_cons_of_pos ha]
      rw [htf, ← hw] at h1
      have h2 := (List.dropWhile_sublist (p := Char.isWhitespace)
        (l := u ++ w)).length_le
      rw [← h1] at h2
      simp at h2
    rw [List.dropWhile_cons_of_neg hna]

theorem trim_idem (s : Str) : trim (trim s) = trim s := by
  conv_lhs => rw [trim]
  rw [trim_dropWhile_fixed]
  show List.rdropWhile Char.isWhitespace (trim s) = trim s
  rw [trim]
  show List.rdropWhile Char.isWhitespace
    (List.rdropWhile Char.isWhitespace (s.dropWhile Char.isWhitespace))
    = List.rdropWhile Char.isWhitespace (s.dropWhile Char.isWhitespace)
  exact List.rdropWhile_idempotent _ _

theorem mem_intersperse {α : Type} {sep x : α} :
    ∀ {l : List α}, x ∈ List.intersperse sep l → x = sep ∨ x ∈ l := by
  intro l
  induction l with
  | nil => intro h; cases h
  | cons a t ih =>
    cases t with
    | nil =>
      intro h
      right
      simpa using h
    | cons b u =>
      intro h
      rw [List.intersperse_cons₂] at h
      rcases List.mem_cons.mp h with rfl | h
      · right; exact List.mem_cons_self _ _
      · rcases List.mem_cons.mp h with rfl | h
        · left; rfl
        · rcases ih h with rfl | h
          · left; rfl
          · right; exact List.mem_cons_of_mem _ h

/-! ## Claim C6: support — goodness of rewritten bodies -/

/-- A line is good when, if it opens a fence, its info string does not
mark a metadata block. -/
def goodLine (l : Str) : Prop :=
  isFenceLine l = true → is_metadata_block (trim (l.drop 3)) = false

/-- A string is good when all its lines are. -/
def goodStr (s : Str) : Prop := ∀ l ∈ splitOnChar '\n' s, goodLine l

theorem goodLine_nil : goodLine [] := by
  intro h
  cases h

theorem goodStr_nil : goodStr [] := by
  intro l hl
  rw [show splitOnChar '\n' ([] : Str) = [[]] from rfl] at hl
  rw [List.mem_singleton.mp hl]
  exact goodLine_nil

theorem goodStr_cons_nl {s : Str} (h : goodStr s) : goodStr ('\n' :: s) := by
  intro l hl
  rw [splitOnChar_cons_sep] at hl
  rcases List.mem_cons.mp hl with rfl | hl
  · exact goodLine_nil
  · exact h l hl

theorem goodStr_append_nl {a b : Str} (ha : goodStr a) (hb : goodStr b) :
    goodStr (a ++ '\n' :: b) := by
  intro l hl
  rw [splitOnChar_append_cons] at hl
  rcases List.mem_append.mp hl with hl | hl
  · exact ha l hl
  · exact hb l hl

/-- The pieces accumulated by the extraction loop: separators and good
runs, where a run is always followed by a separator or nothing. -/
inductive PiecesGood : List Str → Prop where
  | nil : PiecesGood []
  | sep : ∀ {ps}, PiecesGood ps → PiecesGood (['\n', '\n'] :: ps)
  | run : ∀ {r ps}, goodStr r →
      (ps = [] ∨ ps.head? = some ['\n', '\n']) → PiecesGood ps →
      PiecesGood (r :: ps)

theorem goodStr_of_cons_nl {s : Str} (h : goodStr ('\n' :: s)) :
    goodStr s := by
  intro l hl
  refine h l ?_
  rw [splitOnChar_cons_sep]
  exact List.mem_cons_of_mem _ hl

theorem piecesGood_flatten : ∀ {ps : List Str}, PiecesGood ps →
    goodStr ps.flatten := by
  intro ps h
  induction h with
  | nil => exact goodStr_nil
  | sep hps ih =>
    rw [List.flatten_cons]
    exact goodStr_cons_nl (goodStr_cons_nl ih)
  | run hr hnext hps ih =>
    rename_i r ps
    rw [List.flatten_cons]
    rcases hnext with rfl | hnext
    · simpa using hr
    · obtain ⟨p0, ps', rfl⟩ : ∃ p0 ps', ps = p0 :: ps' := by
        cases ps with
        | nil => cases hnext
        | cons p0 ps' => exact ⟨p0, ps', rfl⟩
      have hp0 : p0 = ['\n', '\n'] := by simpa using hnext
      subst hp0
      rw [List.flatten_cons] at ih ⊢
      show goodStr (r ++ '\n' :: ('\n' :: ps'.flatten))
      exact goodStr_append_nl hr (goodStr_of_cons_nl ih)

theorem trim_sublist (x : Str) : List.Sublist (trim x) x := by
  have h1 : trim x <+: x.dropWhile Char.isWhitespace := by
    have h := List.rdropWhile_prefix Char.isWhitespace
      (x.dropWhile Char.isWhitespace)
    simpa [List.rdropWhile, trim] using h
  exact h1.sublist.trans (List.dropWhile_sublist _)

/-- The block grammar of the modelled tokenizer's output: a sequence of
paragraphs (single-line texts separated by soft breaks) and fenced code
blocks (trim-fixed single-line info, newline-free non-fence content
lines). -/
inductive Blocks : List Event → Prop where
  | nil : Blocks []
  | para : ∀ (ls : List Str) (rest : List Event), ls ≠ [] →
      (∀ l ∈ ls, isFenceLine l = false) → (∀ l ∈ ls, '\n' ∉ l) →
      Blocks rest →
      Blocks (Event.Start Tag.Paragraph
        :: (List.intersperse Event.SoftBreak (ls.map Event.Text)
            ++ Event.End Tag.Paragraph :: rest))
  | code : ∀ (info : Str) (content : List Str) (rest : List Event),
      trim info = info → '\n' ∉ info →
      (∀ l ∈ content, isFenceLine l = false) →
      (∀ l ∈ content, '\n' ∉ l) →
      Blocks rest →
      Blocks (Event.Start (Tag.CodeBlockFenced info)
        :: ((if content = [] then [] else [Event.Text (joinLinesNl content)])
            ++ Event.End (Tag.CodeBlockFenced info) :: rest))

/-- The modelled tokenizer only emits block-structured event runs. -/
theorem blocks_tokenizeLines :
    ∀ fuel (lines : List Str), (∀ l ∈ lines, '\n' ∉ l) →
    Blocks (tokenizeLines fuel lines) := by
  intro fuel
  induction fuel with
  | zero =>
    intro lines _
    cases lines <;> exact Blocks.nil
  | succ fuel ih =>
    intro lines hnl
    match lines with
    | [] => exact Blocks.nil
    | l :: ls =>
      rw [tokenizeLines]
      by_cases hb : isBlankLine l
      · rw [if_pos hb]
        exact ih ls (fun x hx => hnl x (List.mem_cons_of_mem _ hx))
      · rw [if_neg hb]
        by_cases hf : isFenceLine l
        · rw [if_pos hf]
          refine Blocks.code _ _ _ (trim_idem _) ?_ ?_ ?_ ?_
          · intro hmem
            exact hnl l (List.mem_cons_self _ _)
              ((List.drop_sublist 3 l).subset ((trim_sublist _).subset hmem))
          · intro x hx
            have := List.mem_takeWhile_imp hx
            simpa using this
          · intro x hx
            exact hnl x (List.mem_cons_of_mem _
              ((List.takeWhile_sublist _).subset hx))
          · refine ih _ ?_
            intro x hx
            exact hnl x (List.mem_cons_of_mem _
              ((List.dropWhile_sublist _).subset
                ((List.drop_sublist 1 _).subset hx)))
        · rw [if_neg hf]
          refine Blocks.para _ _ (by simp) ?_ ?_ ?_
          · intro x hx
            rcases List.mem_cons.mp hx with rfl | hx
            · exact Bool.not_eq_true _ ▸ (by simpa using hf)
            · have := List.mem_takeWhile_imp hx
              simp only [Bool.and_eq_true, Bool.not_eq_true'] at this
              exact this.2
          · intro x hx
            rcases List.mem_cons.mp hx with rfl | hx
            · exact hnl x (List.mem_cons_self _ _)
            · exact hnl x (List.mem_cons_of_mem _
                ((List.takeWhile_sublist _).subset hx))
          · refine ih _ ?_
            intro x hx
            exact hnl x (List.mem_cons_of_mem _
              ((List.dropWhile_sublist _).subset hx))

/-- Every fenced code block start the modelled tokenizer emits takes
its info string from a fence line of the input. -/
theorem tokenizeLines_code_info :
    ∀ fuel (lines : List Str) (info : Str),
    Event.Start (Tag.CodeBlockFenced info) ∈ tokenizeLines fuel lines →
    ∃ l ∈ lines, isFenceLine l = true ∧ info = trim (l.drop 3) := by
  intro fuel
  induction fuel with
  | zero =>
    intro lines info h
    cases lines <;> cases h
  | succ fuel ih =>
    intro lines info h
    match lines with
    | [] => cases h
    | l :: ls =>
      rw [tokenizeLines] at h
      by_cases hb : isBlankLine l
      · rw [if_pos hb] at h
        obtain ⟨x, hx, hprop⟩ := ih ls info h
        exact ⟨x, List.mem_cons_of_mem _ hx, hprop⟩
      · rw [if_neg hb] at h
        by_cases hf : isFenceLine l
        · rw [if_pos hf] at h
          rcases List.mem_cons.mp h with heq | h
          · cases heq
            exact ⟨l, List.mem_cons_self _ _, hf, rfl⟩
          · rcases List.mem_append.mp h with h | h
            · exfalso
              by_cases hc : ls.takeWhile (fun x => !isFenceLine x) = []
              · rw [if_pos hc] at h
                cases h
              · rw [if_neg hc] at h
                cases List.mem_singleton.mp h
            · rcases List.mem_cons.mp h with heq | h
              · cases heq
              · obtain ⟨x, hx, hprop⟩ := ih _ info h
                refine ⟨x, List.mem_cons_of_mem _ ?_, hprop⟩
                exact (List.dropWhile_sublist _).subset
                  ((List.drop_sublist 1 _).subset hx)
        · rw [if_neg hf] at h
          rcases List.mem_cons.mp h with heq | h
          · cases heq
          · rcases List.mem_append.mp h with h | h
            · rcases mem_intersperse h with heq | h
              · cases heq
              · rcases List.mem_map.mp h with ⟨y, _, heq⟩
                cases heq
            · rcases List.mem_cons.mp h with heq | h
              · cases heq
              · obtain ⟨x, hx, hprop⟩ := ih _ info h
                exact ⟨x, List.mem_cons_of_mem _
                  ((List.dropWhile_sublist _).subset hx), hprop⟩

/-! ## Claim C6: support — lines of rendered blocks -/

/-- Join lines with single newlines between them (no trailing one). -/
def joinNl : List Str → Str
  | [] => []
  | [l] => l
  | l :: ls => l ++ '\n' :: joinNl ls

theorem splitOnChar_no_sep_singleton {c : Char} :
    ∀ {l : Str}, c ∉ l → splitOnChar c l = [l] := by
  intro l
  induction l with
  | nil => intro _; rfl
  | cons x r ih =>
    intro h
    have hx : ¬x = c := fun he => h (he ▸ List.mem_cons_self _ _)
    rw [splitOnChar_cons_ne c x r hx,
      ih (fun hc => h (List.mem_cons_of_mem _ hc))]
    rfl

theorem split_joinNl_append :
    ∀ (ls : List Str), ls ≠ [] → (∀ l ∈ ls, '\n' ∉ l) → ∀ z : Str,
    splitOnChar '\n' (joinNl ls ++ '\n' :: z)
      = ls ++ splitOnChar '\n' z := by
  intro ls
  induction ls with
  | nil => intro h; exact absurd rfl h
  | cons l rest ih =>
    intro _ hnl z
    cases rest with
    | nil =>
      rw [show joinNl [l] = l from rfl, splitOnChar_append_cons,
        splitOnChar_no_sep_singleton (hnl l (List.mem_cons_self _ _))]
    | cons l2 rest' =>
      rw [show joinNl (l :: l2 :: rest') = l ++ '\n' :: joinNl (l2 :: rest')
          from rfl]
      rw [List.append_assoc, List.cons_append, splitOnChar_append_cons,
        splitOnChar_no_sep_singleton (hnl l (List.mem_cons_self _ _))]
      rw [ih (by simp) (fun x hx => hnl x (List.mem_cons_of_mem _ hx)) z]
      rfl

theorem split_joinNl :
    ∀ (ls : List Str), ls ≠ [] → (∀ l ∈ ls, '\n' ∉ l) →
    splitOnChar '\n' (joinNl ls) = ls := by
  intro ls
  induction ls with
  | nil => intro h; exact absurd rfl h
  | cons l rest ih =>
    intro _ hnl
    cases rest with
    | nil =>
      rw [show joinNl [l] = l from rfl,
        splitOnChar_no_sep_singleton (hnl l (List.mem_cons_self _ _))]
    | cons l2 rest' =>
      rw [show joinNl (l :: l2 :: rest') = l ++ '\n' :: joinNl (l2 :: rest')
          from rfl]
      rw [splitOnChar_append_cons,
        splitOnChar_no_sep_singleton (hnl l (List.mem_cons_self _ _))]
      rw [ih (by simp) (fun x hx => hnl x (List.mem_cons_of_mem _ hx))]
      rfl

theorem split_joinLinesNl_append :
    ∀ (content : List Str), (∀ l ∈ content, '\n' ∉ l) → ∀ z : Str,
    splitOnChar '\n' (joinLinesNl content ++ z)
      = content ++ splitOnChar '\n' z := by
  intro content
  induction content with
  | nil => intro _ z; rfl
  | cons l rest ih =>
    intro hnl z
    rw [show joinLinesNl (l :: rest) = l ++ '\n' :: joinLinesNl rest
        from rfl]
    rw [List.append_assoc, List.cons_append, splitOnChar_append_cons,
      splitOnChar_no_sep_singleton (hnl l (List.mem_cons_self _ _))]
    rw [ih (fun x hx => hnl x (List.mem_cons_of_mem _ hx)) z]
    rfl

/-- The paragraph interior renders to its lines joined by newlines. -/
theorem stringifyGo_texts :
    ∀ (ls : List Str) (rest : List Event), ls ≠ [] →
    stringifyGo false (List.intersperse Event.SoftBreak (ls.map Event.Text)
      ++ Event.End Tag.Paragraph :: rest)
      = joinNl ls ++ stringifyGo false rest := by
  intro ls
  induction ls with
  | nil => intro rest h; exact absurd rfl h
  | cons l rest' ih =>
    intro rest _
    cases rest' with
    | nil => rfl
    | cons l2 rest'' =>
      rw [List.map_cons, List.map_cons, List.intersperse_cons₂]
      rw [show (Event.Text l :: Event.SoftBreak
          :: List.intersperse Event.SoftBreak
            (Event.Text l2 :: rest''.map Event.Text))
          ++ Event.End Tag.Paragraph :: rest
        = Event.Text l :: Event.SoftBreak
          :: (List.intersperse Event.SoftBreak
            (Event.Text l2 :: rest''.map Event.Text)
            ++ Event.End Tag.Paragraph :: rest) from rfl]
      rw [show stringifyGo false (Event.Text l :: Event.SoftBreak
          :: (List.intersperse Event.SoftBreak
            (Event.Text l2 :: rest''.map Event.Text)
            ++ Event.End Tag.Paragraph :: rest))
        = l ++ '\n' :: stringifyGo false
            (List.intersperse Event.SoftBreak
              (Event.Text l2 :: rest''.map Event.Text)
              ++ Event.End Tag.Paragraph :: rest) from rfl]
      rw [show (Event.Text l2 :: rest''.map Event.Text)
          = (l2 :: rest'').map Event.Text from rfl]
      rw [ih rest (by simp)]
      rw [show joinNl (l :: l2 :: rest'') = l ++ '\n' :: joinNl (l2 :: rest'')
          from rfl]
      rw [List.append_assoc]
      rfl

/-- A nonempty blocks run prefixed into a running render receives a
leading blank double line-break. -/
theorem stringifyGo_false_blocks {rest : List Event} (h : Blocks rest)
    (hne : rest ≠ []) :
    stringifyGo false rest = '\n' :: '\n' :: stringifyGo true rest := by
  cases h with
  | nil => exact absurd rfl hne
  | para ls tail _ _ _ _ => rfl
  | code info content tail _ _ _ _ _ => rfl

theorem goodLine_closer : goodLine "```".data := by
  intro h
  decide

theorem goodLine_fence {info : Str} (hmeta : is_metadata_block info = false)
    (htrim : trim info = info) : goodLine ("```".data ++ info) := by
  intro _
  rw [show ("```".data ++ info).drop 3 = info from
    List.drop_left' (by decide)]
  rw [htrim]
  exact hmeta

/-- Rendering a metadata-free blocks run produces only good lines. -/
theorem blocks_goodStr : ∀ {run : List Event}, Blocks run →
    (∀ info, Event.Start (Tag.CodeBlockFenced info) ∈ run →
      is_metadata_block info = false) →
    goodStr (stringify run) := by
  intro run h
  induction h with
  | nil => intro _; exact goodStr_nil
  | para ls rest hne hfence hnl hrest ih =>
    intro hinfo
    have hih := ih (fun info hm => hinfo info (List.mem_cons_of_mem _
      (List.mem_append_right _ (List.mem_cons_of_mem _ hm))))
    have hjoin : goodStr (joinNl ls) := by
      intro l hl
      rw [split_joinNl ls hne hnl] at hl
      intro hf
      rw [hfence l hl] at hf
      cases hf
    rw [show stringify (Event.Start Tag.Paragraph
        :: (List.intersperse Event.SoftBreak (ls.map Event.Text)
            ++ Event.End Tag.Paragraph :: rest))
      = stringifyGo false (List.intersperse Event.SoftBreak
          (ls.map Event.Text) ++ Event.End Tag.Paragraph :: rest) from rfl]
    rw [stringifyGo_texts ls rest hne]
    cases hrest with
    | nil =>
      show goodStr (joinNl ls ++ [])
      rw [List.append_nil]
      exact hjoin
    | para ls2 t2 a2 b2 c2 d2 =>
      rw [stringifyGo_false_blocks (Blocks.para ls2 t2 a2 b2 c2 d2)
        (by simp)]
      exact goodStr_append_nl hjoin (goodStr_cons_nl hih)
    | code i2 c2 t2 a2 b2 e2 f2 g2 =>
      rw [stringifyGo_false_blocks (Blocks.code i2 c2 t2 a2 b2 e2 f2 g2)
        (by simp)]
      exact goodStr_append_nl hjoin (goodStr_cons_nl hih)
  | code info content rest htrim hinl hcfence hcnl hrest ih =>
    intro hinfo
    have hih := ih (fun i hm => hinfo i (List.mem_cons_of_mem _
      (List.mem_append_right _ (List.mem_cons_of_mem _ hm))))
    have hmeta : is_metadata_block info = false :=
      hinfo info (List.mem_cons_self _ _)
    have hXnl : '\n' ∉ "```".data ++ info := by
      intro hm
      rcases List.mem_append.mp hm with hm | hm
      · simp at hm
      · exact hinl hm
    have htail : goodStr (stringifyGo false
        ((if content = [] then []
          else [Event.Text (joinLinesNl content)])
          ++ Event.End (Tag.CodeBlockFenced info) :: rest)) := by
      have hcstr : stringifyGo false
          ((if content = [] then []
            else [Event.Text (joinLinesNl content)])
            ++ Event.End (Tag.CodeBlockFenced info) :: rest)
          = joinLinesNl content
            ++ "```".data ++ stringifyGo false rest := by
        by_cases hc : content = []
        · subst hc
          rw [if_pos rfl]
          rfl
        · rw [if_neg hc]
          show joinLinesNl content ++ stringifyGo false
              (Event.End (Tag.CodeBlockFenced info) :: rest)
            = _
          rw [List.append_assoc]
          rfl
      rw [hcstr]
      rw [List.append_assoc]
      intro l hl
      rw [split_joinLinesNl_append content hcnl _] at hl
      rcases List.mem_append.mp hl with hl | hl
      · intro hf
        rw [hcfence l hl] at hf
        cases hf
      · cases hrest with
        | nil =>
          rw [show stringifyGo false ([] : List Event) = [] from rfl,
            List.append_nil] at hl
          rw [splitOnChar_no_sep_singleton (by decide)] at hl
          rw [List.mem_singleton.mp hl]
          exact goodLine_closer
        | para ls2 t2 a2 b2 c2 d2 =>
          rw [stringifyGo_false_blocks (Blocks.para ls2 t2 a2 b2 c2 d2)
            (by simp)] at hl
          rw [show ("```".data
              ++ '\n' :: '\n' :: stringifyGo true (Event.Start Tag.Paragraph
                :: (List.intersperse Event.SoftBreak (ls2.map Event.Text)
                  ++ Event.End Tag.Paragraph :: t2)))
            = "```".data ++ '\n' :: ('\n' :: stringifyGo true
                (Event.Start Tag.Paragraph
                :: (List.intersperse Event.SoftBreak (ls2.map Event.Text)
                  ++ Event.End Tag.Paragraph :: t2))) from rfl] at hl
          rw [splitOnChar_append_cons] at hl
          rcases List.mem_append.mp hl with hl | hl
          · rw [splitOnChar_no_sep_singleton (by decide)] at hl
            rw [List.mem_singleton.mp hl]
            exact goodLine_closer
          · rw [splitOnChar_cons_sep] at hl
            rcases List.mem_cons.mp hl with rfl | hl
            · exact goodLine_nil
            · exact hih l hl
        | code i2 c2 t2 a2 b2 e2 f2 g2 =>
          rw [stringifyGo_false_blocks (Blocks.code i2 c2 t2 a2 b2 e2 f2 g2)
            (by simp)] at hl
          rw [show ("```".data
              ++ '\n' :: '\n' :: stringifyGo true
                (Event.Start (Tag.CodeBlockFenced i2)
                :: ((if c2 = [] then []
                    else [Event.Text (joinLinesNl c2)])
                  ++ Event.End (Tag.CodeBlockFenced i2) :: t2)))
            = "```".data ++ '\n' :: ('\n' :: stringifyGo true
                (Event.Start (Tag.CodeBlockFenced i2)
                :: ((if c2 = [] then []
                    else [Event.Text (joinLinesNl c2)])
                  ++ Event.End (Tag.CodeBlockFenced i2) :: t2)))
            from rfl] at hl
          rw [splitOnChar_append_cons] at hl
          rcases List.mem_append.mp hl with hl | hl
          · rw [splitOnChar_no_sep_singleton (by decide)] at hl
            rw [List.mem_singleton.mp hl]
            exact goodLine_closer
          · rw [splitOnChar_cons_sep] at hl
            rcases List.mem_cons.mp hl with rfl | hl
            · exact goodLine_nil
            · exact hih l hl
    rw [show stringify (Event.Start (Tag.CodeBlockFenced info)
        :: ((if content = [] then []
            else [Event.Text (joinLinesNl content)])
            ++ Event.End (Tag.CodeBlockFenced info) :: rest))
      = ("```".data ++ info) ++ '\n' :: stringifyGo false
          ((if content = [] then []
            else [Event.Text (joinLinesNl content)])
            ++ Event.End (Tag.CodeBlockFenced info) :: rest) from by
        show (if true = true then ([] : Str) else ['\n', '\n'])
            ++ "```".data ++ info ++ ['\n'] ++ stringifyGo false _
          = _
        simp [List.append_assoc]]
    intro l hl
    rw [splitOnChar_append_cons] at hl
    rcases List.mem_append.mp hl with hl | hl
    · rw [splitOnChar_no_sep_singleton hXnl] at hl
      rw [List.mem_singleton.mp hl]
      exact goodLine_fence hmeta htrim
    · exact htail l hl

/-! ## Claim C6: support — the extraction loop over block runs -/

/-- Step lemma: a metadata block at the head of the stream is consumed
through its end, recorded under its key and replaced in the body by a
blank double line-break. -/
theorem extract_step_meta (fuel : Nat) (p : CMarkParser) (tag : Str)
    (o1 : Nat) (inner : List (Event × Nat)) (tag2 : Str) (o2 : Nat)
    (post : List (Event × Nat)) (body : List Str)
    (md : List (Str × SectionMetadata))
    (hev : p.events = (Event.Start (Tag.CodeBlockFenced tag), o1) :: inner
      ++ (Event.End (Tag.CodeBlockFenced tag2), o2) :: post)
    (hmeta : is_metadata_block tag = true)
    (hinner : ∀ x ∈ inner, isFencedEnd x.1 = false) :
    extract_metadata_go (fuel + 1) p body md
      = extract_metadata_go fuel { p with events := post, offset := o2 }
          (body ++ [['\n', '\n']])
          (mapInsert md (parse_metadata_tag tag).2
            { lang := (parse_metadata_tag tag).1,
              data := stringify (inner.map Prod.fst) }) := by
  have hpk : CMarkParser.peekEvent p
      = some (Event.Start (Tag.CodeBlockFenced tag)) := by
    rw [CMarkParser.peekEvent, hev]
    rfl
  rw [extract_metadata_go, hpk]
  try dsimp only
  rw [hmeta]
  try dsimp only
  rw [nextEvent_cons hev]
  try dsimp only
  rw [iterUntilConsume_stops isFencedEnd _ inner
    (Event.End (Tag.CodeBlockFenced tag2)) o2 post rfl hinner rfl]
  rfl

/-- Step lemma: a nonempty run of events with no metadata start is
rendered through to the body in one piece, stopping at stream end or at
the next metadata block start. -/
theorem extract_step_run (fuel : Nat) (p : CMarkParser)
    (pre post : List (Event × Nat)) (body : List Str)
    (md : List (Str × SectionMetadata))
    (hev : p.events = pre ++ post) (hne : pre ≠ [])
    (hpre : ∀ x ∈ pre, isMetadataStart x.1 = false)
    (hpost : post = [] ∨ ∃ e o post', post = (e, o) :: post'
      ∧ isMetadataStart e = true) :
    extract_metadata_go (fuel + 1) p body md
      = extract_metadata_go fuel
          { p with events := post,
                   offset := (pre.map Prod.snd).getLastD p.offset }
          (body ++ [stringify (pre.map Prod.fst)]) md := by
  obtain ⟨x, xs, rfl⟩ : ∃ x xs, pre = x :: xs := by
    cases pre with
    | nil => exact absurd rfl hne
    | cons x xs => exact ⟨x, xs, rfl⟩
  obtain ⟨ex, ox⟩ := x
  have hx : isMetadataStart ex = false :=
    hpre (ex, ox) (List.mem_cons_self _ _)
  have hpk : CMarkParser.peekEvent p = some ex := by
    rw [CMarkParser.peekEvent, hev]
    rfl
  have hstops := iterUntil_stops isMetadataStart p ((ex, ox) :: xs) post
    hev hpre hpost
  rw [extract_metadata_go, hpk]
  match ex, hx with
  | .Start (.CodeBlockFenced tag), hx =>
    try dsimp only
    rw [show is_metadata_block tag = false from by
      rw [isMetadataStart] at hx
      exact hx]
    try dsimp only
    rw [hstops]
    rfl
  | .Start .Paragraph, _ => (try dsimp only); rw [hstops]
  | .Start .CodeBlockIndented, _ => (try dsimp only); rw [hstops]
  | .Start (.Heading hl), _ => (try dsimp only); rw [hstops]
  | .Start (.List bb), _ => (try dsimp only); rw [hstops]
  | .Start .Item, _ => (try dsimp only); rw [hstops]
  | .Start (.Link href), _ => (try dsimp only); rw [hstops]
  | .Start .Emphasis, _ => (try dsimp only); rw [hstops]
  | .Start .BlockQuote, _ => (try dsimp only); rw [hstops]
  | .End t, _ => (try dsimp only); rw [hstops]
  | .Text s, _ => (try dsimp only); rw [hstops]
  | .Code s, _ => (try dsimp only); rw [hstops]
  | .Html s, _ => (try dsimp only); rw [hstops]
  | .SoftBreak, _ => (try dsimp only); rw [hstops]
  | .HardBreak, _ => (try dsimp only); rw [hstops]
  | .Rule, _ => (try dsimp only); rw [hstops]

/-- Split a block run at its first metadata block start: a clean prefix
of whole blocks, then either nothing or a metadata block leading the
remainder. -/
theorem blocks_split_meta : ∀ {run : List Event}, Blocks run →
    ∃ pre rest, run = pre ++ rest
      ∧ (∀ e ∈ pre, isMetadataStart e = false)
      ∧ Blocks pre ∧ Blocks rest
      ∧ (rest = [] ∨ ∃ tag inner rest',
          rest = Event.Start (Tag.CodeBlockFenced tag)
            :: (inner ++ Event.End (Tag.CodeBlockFenced tag) :: rest')
          ∧ is_metadata_block tag = true
          ∧ (∀ x ∈ inner, isFencedEnd x = false)
          ∧ Blocks rest') := by
  intro run h
  induction h with
  | nil =>
    exact ⟨[], [], rfl, fun e he => absurd he (List.not_mem_nil e),
      Blocks.nil, Blocks.nil, Or.inl rfl⟩
  | para ls rest hne hf hn hrest ih =>
    obtain ⟨pre, rest2, hsplit, hprem, hpreB, hrestB, hdisj⟩ := ih
    refine ⟨Event.Start Tag.Paragraph
        :: (List.intersperse Event.SoftBreak (ls.map Event.Text)
          ++ Event.End Tag.Paragraph :: pre), rest2, ?_, ?_, ?_,
        hrestB, hdisj⟩
    · rw [hsplit]
      simp [List.append_assoc]
    · intro e he
      rcases List.mem_cons.mp he with rfl | he
      · rfl
      · rcases List.mem_append.mp he with he | he
        · rcases mem_intersperse he with rfl | he
          · rfl
          · rcases List.mem_map.mp he with ⟨y, _, rfl⟩
            rfl
        · rcases List.mem_cons.mp he with rfl | he
          · rfl
          · exact hprem e he
    · exact Blocks.para ls pre hne hf hn hpreB
  | code info content rest htrim hinl hcf hcn hrest ih =>
    by_cases hm : is_metadata_block info = true
    · refine ⟨[], Event.Start (Tag.CodeBlockFenced info)
          :: ((if content = [] then [] else [Event.Text (joinLinesNl content)])
            ++ Event.End (Tag.CodeBlockFenced info) :: rest),
          rfl, fun e he => absurd he (List.not_mem_nil e), Blocks.nil,
          Blocks.code info content rest htrim hinl hcf hcn hrest,
          Or.inr ⟨info, _, rest, rfl, hm, ?_, hrest⟩⟩
      intro x hx
      by_cases hc : content = []
      · rw [if_pos hc] at hx
        cases hx
      · rw [if_neg hc] at hx
        rw [List.mem_singleton.mp hx]
        rfl
    · obtain ⟨pre, rest2, hsplit, hprem, hpreB, hrestB, hdisj⟩ := ih
      refine ⟨Event.Start (Tag.CodeBlockFenced info)
          :: ((if content = [] then [] else [Event.Text (joinLinesNl content)])
            ++ Event.End (Tag.CodeBlockFenced info) :: pre), rest2,
          ?_, ?_, ?_, hrestB, hdisj⟩
      · rw [hsplit]
        simp [List.append_assoc]
      · intro e he
        rcases List.mem_cons.mp he with rfl | he
        · show is_metadata_block info = false
          simpa using hm
        · rcases List.mem_append.mp he with he | he
          · by_cases hc : content = []
            · rw [if_pos hc] at he
              cases he
            · rw [if_neg hc] at he
              rw [List.mem_singleton.mp he]
              rfl
          · rcases List.mem_cons.mp he with rfl | he
            · rfl
            · exact hprem e he
      · exact Blocks.code info content pre htrim hinl hcf hcn hpreB

/-- With no metadata start anywhere in the stream, the extraction loop
renders everything through in one piece and leaves the map unchanged. -/
theorem extract_go_nometa : ∀ (fuel : Nat) (p : CMarkParser)
    (body : List Str) (md : List (Str × SectionMetadata)),
    p.events.length < fuel →
    (∀ x ∈ p.events, isMetadataStart x.1 = false) →
    extract_metadata_go fuel p body md
      = Except.ok (body ++ (if p.events.isEmpty then []
          else [stringify (p.events.map Prod.fst)]), md) := by
  intro fuel
  match fuel with
  | 0 =>
    intro p body md h _
    exact absurd h (Nat.not_lt_zero _)
  | fuel + 1 =>
    intro p body md hlen hnometa
    cases hev : p.events with
    | nil =>
      have hpk : CMarkParser.peekEvent p = none := by
        rw [CMarkParser.peekEvent, hev]
      rw [extract_metadata_go, hpk]
      show Except.ok (body, md) = Except.ok (body ++ [], md)
      rw [List.append_nil]
    | cons x xs =>
      have hx : ∀ y ∈ (x :: xs : List (Event × Nat)),
          isMetadataStart y.1 = false := by
        intro y hy
        exact hnometa y (hev ▸ hy)
      rw [extract_step_run fuel p (x :: xs) [] body md
        (by rw [hev, List.append_nil]) (by simp) hx (Or.inl rfl)]
      obtain ⟨fuel', rfl⟩ : ∃ f, fuel = f + 1 := by
        rw [hev] at hlen
        simp only [List.length_cons] at hlen
        exact ⟨fuel - 1, by omega⟩
      show Except.ok (body ++ [stringify ((x :: xs).map Prod.fst)], md)
        = Except.ok (body ++ (if (x :: xs).isEmpty then []
            else [stringify ((x :: xs).map Prod.fst)]), md)
      rfl

/-- Loop invariant of the metadata extraction over a block-structured
stream: it succeeds, and the accumulated body pieces alternate good
runs and blank separators (a separator leading whenever the stream
opens at a metadata block). -/
theorem extract_go_good : ∀ (fuel : Nat) (p : CMarkParser)
    (body : List Str) (md : List (Str × SectionMetadata)),
    p.events.length < fuel →
    Blocks (p.events.map Prod.fst) →
    ∃ delta md',
      extract_metadata_go fuel p body md = Except.ok (body ++ delta, md')
      ∧ PiecesGood delta
      ∧ (∀ e0 os, p.events = e0 :: os → isMetadataStart e0.1 = true →
          delta.head? = some ['\n', '\n']) := by
  intro fuel
  induction fuel with
  | zero =>
    intro p body md h _
    exact absurd h (Nat.not_lt_zero _)
  | succ fuel ih =>
    intro p body md hlen hblocks
    obtain ⟨pre, rest, hsplit, hprem, hpreB, hrestB, hdisj⟩ :=
      blocks_split_meta hblocks
    obtain ⟨P, R, hPR, hPmap, hRmap⟩ := List.map_eq_append_iff.mp hsplit
    rcases hdisj with rfl | ⟨tag, inner, rest', hshape, htag, hinner, hrest'B⟩
    · rw [List.append_nil] at hsplit
      have hnometa : ∀ x ∈ p.events, isMetadataStart x.1 = false := by
        intro x hx
        refine hprem x.1 ?_
        rw [← hsplit]
        exact List.mem_map_of_mem _ hx
      rw [extract_go_nometa (fuel + 1) p body md hlen hnometa]
      cases hev : p.events with
      | nil =>
        refine ⟨[], md, rfl, PiecesGood.nil, ?_⟩
        intro e0 os h0 _
        simp at h0
      | cons x xs =>
        refine ⟨[stringify ((x :: xs).map Prod.fst)], md, rfl, ?_, ?_⟩
        · refine PiecesGood.run ?_ (Or.inl rfl) PiecesGood.nil
          refine blocks_goodStr ?_ ?_
          · rw [hev] at hblocks
            exact hblocks
          · intro info hm
            refine hprem (Event.Start (Tag.CodeBlockFenced info)) ?_
            rw [← hsplit, hev]
            exact hm
        · intro e0 os h0 hm0
          have hp0 : isMetadataStart e0.1 = false := by
            refine hnometa e0 ?_
            injection h0 with h0a h0b
            rw [hev, h0a]
            exact List.mem_cons_self _ _
          rw [hm0] at hp0
          exact Bool.noConfusion hp0
    · subst hshape
      cases R with
      | nil => simp at hRmap
      | cons r0 R1 =>
        obtain ⟨e0v, o0⟩ := r0
        rw [List.map_cons] at hRmap
        injection hRmap with hr0 hR1
        have he0 : e0v = Event.Start (Tag.CodeBlockFenced tag) := hr0
        subst he0
        obtain ⟨I, R2', hR1eq, hImap, hR2'map⟩ :=
          List.map_eq_append_iff.mp hR1
        cases R2' with
        | nil => simp at hR2'map
        | cons e1 R2 =>
          obtain ⟨e1v, o1⟩ := e1
          rw [List.map_cons] at hR2'map
          injection hR2'map with he1 hR2
          have he1' : e1v = Event.End (Tag.CodeBlockFenced tag) := he1
          subst he1'
          cases P with
          | nil =>
            have hev : p.events
                = (Event.Start (Tag.CodeBlockFenced tag), o0) :: I
                  ++ (Event.End (Tag.CodeBlockFenced tag), o1) :: R2 := by
              rw [hPR, hR1eq]
              rfl
            have hinnerI : ∀ x ∈ I, isFencedEnd x.1 = false := by
              intro x hx
              refine hinner x.1 ?_
              rw [← hImap]
              exact List.mem_map_of_mem _ hx
            rw [extract_step_meta fuel p tag o0 I tag o1 R2 body md
              hev htag hinnerI]
            have h1 := congrArg List.length hev
            simp [List.length_append] at h1
            have hlen2 : ({ p with events := R2, offset := o1 }
                : CMarkParser).events.length < fuel := by
              show R2.length < fuel
              omega
            have hblocks2 : Blocks (({ p with events := R2, offset := o1 }
                : CMarkParser).events.map Prod.fst) := by
              show Blocks (R2.map Prod.fst)
              rw [hR2]
              exact hrest'B
            obtain ⟨delta', md'', heq, hpg, hhead⟩ :=
              ih { p with events := R2, offset := o1 }
                (body ++ [['\n', '\n']])
                (mapInsert md (parse_metadata_tag tag).2
                  { lang := (parse_metadata_tag tag).1,
                    data := stringify (I.map Prod.fst) }) hlen2 hblocks2
            refine ⟨['\n', '\n'] :: delta', md'', ?_,
              PiecesGood.sep hpg, ?_⟩
            · rw [heq, List.append_assoc]
              rfl
            · intro e0 os h0 hm0
              rfl
          | cons p0 P1 =>
            have hprememP : ∀ x ∈ (p0 :: P1 : List (Event × Nat)),
                isMetadataStart x.1 = false := by
              intro x hx
              refine hprem x.1 ?_
              rw [← hPmap]
              exact List.mem_map_of_mem _ hx
            rw [extract_step_run fuel p (p0 :: P1)
              ((Event.Start (Tag.CodeBlockFenced tag), o0) :: R1) body md
              hPR (by simp) hprememP (Or.inr ⟨_, _, _, rfl, htag⟩)]
            have h1 : p.events.length = (p0 :: P1).length
                + ((Event.Start (Tag.CodeBlockFenced tag), o0)
                  :: R1).length := by
              rw [hPR, List.length_append]
            simp only [List.length_cons] at h1
            have hlen2 : (((Event.Start (Tag.CodeBlockFenced tag), o0)
                :: R1) : List (Event × Nat)).length < fuel := by
              simp only [List.length_cons]
              omega
            have hblocks2 : Blocks ((((Event.Start
                (Tag.CodeBlockFenced tag), o0) :: R1)
                : List (Event × Nat)).map Prod.fst) := by
              show Blocks (Event.Start (Tag.CodeBlockFenced tag)
                :: R1.map Prod.fst)
              rw [hR1]
              exact hrestB
            obtain ⟨delta', md'', heq, hpg, hhead⟩ :=
              ih { p with
                    events := (Event.Start (Tag.CodeBlockFenced tag), o0)
                      :: R1,
                    offset := ((p0 :: P1).map Prod.snd).getLastD p.offset }
                (body ++ [stringify ((p0 :: P1).map Prod.fst)]) md
                hlen2 hblocks2
            have hh : delta'.head? = some ['\n', '\n'] :=
              hhead (Event.Start (Tag.CodeBlockFenced tag), o0) R1 rfl htag
            refine ⟨stringify ((p0 :: P1).map Prod.fst) :: delta', md'',
              ?_, ?_, ?_⟩
            · rw [heq, List.append_assoc]
              rfl
            · refine PiecesGood.run ?_ (Or.inr hh) hpg
              refine blocks_goodStr ?_ ?_
              · rw [hPmap]
                exact hpreB
              · intro info hm
                refine hprem (Event.Start (Tag.CodeBlockFenced info)) ?_
                rw [← hPmap]
                exact hm
            · intro e0 os h0 hm0
              rw [hPR, List.cons_append] at h0
              injection h0 with h0a h0b
              have hp0 : isMetadataStart e0.1 = false := by
                rw [← h0a]
                exact hprememP p0 (List.mem_cons_self _ _)
              rw [hm0] at hp0
              exact Bool.noConfusion hp0

/-! ## Claim C6: idempotence of the metadata extraction -/

theorem isMetadataStart_false_of_infos (e : Event)
    (h : ∀ info, e = Event.Start (Tag.CodeBlockFenced info) →
      is_metadata_block info = false) :
    isMetadataStart e = false := by
  match e with
  | .Start (.CodeBlockFenced info) => exact h info rfl
  | .Start .Paragraph => rfl
  | .Start .CodeBlockIndented => rfl
  | .Start (.Heading n) => rfl
  | .Start (.List b) => rfl
  | .Start .Item => rfl
  | .Start (.Link href) => rfl
  | .Start .Emphasis => rfl
  | .Start .BlockQuote => rfl
  | .End t => rfl
  | .Text s => rfl
  | .Code s => rfl
  | .Html s => rfl
  | .SoftBreak => rfl
  | .HardBreak => rfl
  | .Rule => rfl

theorem map_pair_fst : ∀ (l : List Event),
    (l.map (fun e => (e, (0 : Nat)))).map Prod.fst = l := by
  intro l
  induction l with
  | nil => rfl
  | cons e es ih => rw [List.map_cons, List.map_cons, ih]

/-- Unfolding of `extract_metadata` to the underlying loop call. -/
theorem extract_metadata_eq (sec : Section) :
    extract_metadata sec
      = (extract_metadata_go
          (((tokenize sec.body).map (fun e => (e, (0 : Nat)))).length + 1)
          (CMarkParser.new sec.body
            ((tokenize sec.body).map (fun e => (e, (0 : Nat)))))
          [] [] >>= fun x =>
            pure { sec with
                   body := x.1.flatten,
                   metadata := mapExtend sec.metadata x.2 }) := rfl

/-- A body whose tokenization holds no metadata-tagged fenced block is
passed through the library round-trip untouched, with the metadata map
unchanged. -/
theorem extract_metadata_nometa (sec : Section)
    (h : ∀ info, Event.Start (Tag.CodeBlockFenced info) ∈ tokenize sec.body →
      is_metadata_block info = false) :
    extract_metadata sec
      = Except.ok { sec with body := stringify (tokenize sec.body) } := by
  have hmetaE : ∀ x ∈ (tokenize sec.body).map (fun e => (e, (0 : Nat))),
      isMetadataStart x.1 = false := by
    intro x hx
    rcases List.mem_map.mp hx with ⟨e, he, rfl⟩
    refine isMetadataStart_false_of_infos e ?_
    intro info hinfo
    exact h info (hinfo ▸ he)
  have hgo := extract_go_nometa
    (((tokenize sec.body).map (fun e => (e, (0 : Nat)))).length + 1)
    (CMarkParser.new sec.body
      ((tokenize sec.body).map (fun e => (e, (0 : Nat)))))
    [] [] (Nat.lt_succ_self _) hmetaE
  rw [extract_metadata_eq, hgo, ok_bind]
  cases ht : tokenize sec.body with
  | nil => rfl
  | cons e es =>
    show (Except.ok { sec with
        body := stringify (((e :: es).map
          (fun e => (e, (0 : Nat)))).map Prod.fst) ++ [],
        metadata := mapExtend sec.metadata [] } : Except PErr Section)
      = Except.ok { sec with body := stringify (e :: es) }
    rw [List.append_nil, map_pair_fst]
    rfl

/-- C6: metadata extraction is idempotent.  When a first run succeeds,
a second run on the produced section succeeds, leaves the metadata map
unchanged (no metadata block is extracted again) and only passes the
body through the markdown library's own round-trip normalization; and a
body whose tokenization contains no metadata-tagged code block is
returned as exactly the library round-trip of itself, with the metadata
map untouched. -/
theorem C6_extract_metadata_idempotent :
    (∀ sec sec1 : Section, extract_metadata sec = Except.ok sec1 →
      extract_metadata sec1
        = Except.ok { sec1 with body := stringify (tokenize sec1.body) })
    ∧ (∀ sec : Section,
      (∀ info, Event.Start (Tag.CodeBlockFenced info) ∈ tokenize sec.body →
        is_metadata_block info = false) →
      extract_metadata sec
        = Except.ok { sec with body := stringify (tokenize sec.body) }) := by
  constructor
  · intro sec sec1 hrun
    have hblocks : Blocks (((tokenize sec.body).map
        (fun e => (e, (0 : Nat)))).map Prod.fst) := by
      rw [map_pair_fst]
      exact blocks_tokenizeLines _ _ (splitOnChar_no_sep '\n' sec.body)
    obtain ⟨delta, md', heq, hpg, _⟩ := extract_go_good
      (((tokenize sec.body).map (fun e => (e, (0 : Nat)))).length + 1)
      (CMarkParser.new sec.body
        ((tokenize sec.body).map (fun e => (e, (0 : Nat)))))
      [] [] (Nat.lt_succ_self _) hblocks
    have hcomp : extract_metadata sec
        = Except.ok { sec with
            body := ([] ++ delta).flatten,
            metadata := mapExtend sec.metadata md' } := by
      rw [extract_metadata_eq, heq, ok_bind]
      rfl
    rw [hcomp] at hrun
    injection hrun with h1
    have hgood : goodStr sec1.body := by
      rw [← h1]
      show goodStr (([] ++ delta).flatten)
      rw [List.nil_append]
      exact piecesGood_flatten hpg
    refine extract_metadata_nometa sec1 ?_
    intro info hmem
    obtain ⟨l, hl, hfence, hinfo⟩ := tokenizeLines_code_info
      ((splitOnChar '\n' sec1.body).length + 1)
      (splitOnChar '\n' sec1.body) info hmem
    rw [hinfo]
    exact hgood l hl hfence
  · intro sec h
    exact extract_metadata_nometa sec h

/-- C6 witness: a two-line paragraph body has no metadata block, and the
extractor returns it as the library round-trip of itself with the
metadata map untouched. -/
theorem C6_extract_metadata_idempotent_witness :
    extract_metadata (Section.mk "t".data 1 "S\nT".data [] [])
      = Except.ok { Section.mk "t".data 1 "S\nT".data [] [] with
          body := stringify (tokenize "S\nT".data) } :=
  C6_extract_metadata_idempotent.2 (Section.mk "t".data 1 "S\nT".data [] [])
    (by
      intro info hmem
      rw [show tokenize "S\nT".data
          = [Event.Start Tag.Paragraph, Event.Text "S".data,
             Event.SoftBreak, Event.Text "T".data,
             Event.End Tag.Paragraph] from rfl] at hmem
      simp at hmem)

end DM
